import Mathlib

/-
Verification of the image-metadata core (`src/spec-node/imageMetadata.ts`).

The development shallowly embeds the module's data model and operations:

* JavaScript/JSON values are modelled by the inductive `JVal`; plain objects
  are association lists (`Obj`), preserving key insertion order as JS does.
* `JSON.stringify` is modelled by `emitVal` (compact output, standard string
  escaping, exact integer numbers) and `JSON.parse` by `jsonParse`, a total
  fuel-indexed recursive-descent parser over the standard JSON grammar.
* The label-escaping regex replace of `toLabelString` is modelled by
  `escapeLabelChars` (insert `\` before each of `"`, `\`, `$`).
* Effectful collaborators (file system, image inspection, diagnostic log) are
  explicit function parameters; the calls a resolution performs are recorded
  in an explicit `Event` trace returned alongside the result.  Exception
  control flow (`throw`) is modelled with `Except`.

Functions keep their source names where Lean allows.
-/

namespace DevContainer

/-- A JSON value: the result type of `JSON.parse` and argument type of
`JSON.stringify`.  Objects keep their fields as an ordered association list,
matching JavaScript property insertion order. -/
inductive JVal where
  | null
  | bool (b : Bool)
  | num (n : Int)
  | str (s : String)
  | arr (elems : List JVal)
  | obj (fields : List (String × JVal))
deriving Repr

/-- A JavaScript plain object, as used for configurations and features. -/
abbrev Obj := List (String × JVal)

/-- The opening curly brace (written numerically to keep the source free of
brace characters outside of code positions). -/
def curlyOpen : Char := Char.ofNat 123

/-- The closing curly brace. -/
def curlyClose : Char := Char.ofNat 125

/-! ### Model of `JSON.stringify` -/

/-- Digit character for a value `0 ≤ d ≤ 9`. -/
def digitChar (d : Nat) : Char := Char.ofNat (48 + d)

/-- Decimal digits of `n`, most significant first; fuel-indexed so that the
definition is structural (and hence kernel-reducible).  The fuel `n + 1`
used by `natDigits` always suffices. -/
def natDigitsGo : Nat → Nat → List Char → List Char
  | 0, _, acc => acc
  | f + 1, n, acc =>
    if n < 10 then digitChar n :: acc
    else natDigitsGo f (n / 10) (digitChar (n % 10) :: acc)

/-- Decimal digit characters of a natural number, most significant first. -/
def natDigits (n : Nat) : List Char := natDigitsGo (n + 1) n []

/-- Decimal rendering of an integer, as `JSON.stringify` produces for safe
integers. -/
def emitInt (n : Int) : List Char :=
  if n < 0 then '-' :: natDigits (-n).toNat else natDigits n.toNat

/-- JSON string-literal escaping of one character, as `JSON.stringify`
performs inside string values. -/
def escapeJsonChar (c : Char) : List Char :=
  if c = '"' then ['\\', '"']
  else if c = '\\' then ['\\', '\\']
  else if c = '\n' then ['\\', 'n']
  else if c = '\t' then ['\\', 't']
  else if c = '\r' then ['\\', 'r']
  else [c]

/-- A JSON string literal (including the surrounding quotes). -/
def emitStr (s : String) : List Char :=
  '"' :: (s.data.flatMap escapeJsonChar ++ ['"'])

mutual
/-- Model of `JSON.stringify`: compact serialization of a `JVal`. -/
def emitVal : JVal → List Char
  | .null => "null".data
  | .bool true => "true".data
  | .bool false => "false".data
  | .num n => emitInt n
  | .str s => emitStr s
  | .arr es => '[' :: (emitElems es ++ [']'])
  | .obj fs => curlyOpen :: (emitFields fs ++ [curlyClose])
/-- Comma-separated serialization of array elements. -/
def emitElems : List JVal → List Char
  | [] => []
  | [e] => emitVal e
  | e :: es => emitVal e ++ ',' :: emitElems es
/-- Comma-separated serialization of object members. -/
def emitFields : List (String × JVal) → List Char
  | [] => []
  | [(k, v)] => emitStr k ++ ':' :: emitVal v
  | (k, v) :: fs => emitStr k ++ ':' :: emitVal v ++ ',' :: emitFields fs
end

/-! ### Well-formedness of values

A value is well-formed when every string in it (keys included) consists of
characters our `JSON.stringify` model serializes exactly: printable
characters plus the escaped controls `\n`, `\t`, `\r`. -/

/-- A character our string-escaping model round-trips. -/
def safeChar (c : Char) : Bool :=
  decide (32 ≤ c.toNat) || c == '\n' || c == '\t' || c == '\r'

/-- All characters of the string are `safeChar`. -/
def safeStr (s : String) : Bool := s.data.all safeChar

mutual
/-- Well-formedness of a JSON value (see section comment). -/
def wfVal : JVal → Bool
  | .null => true
  | .bool _ => true
  | .num _ => true
  | .str s => safeStr s
  | .arr es => wfElems es
  | .obj fs => wfFields fs
/-- Well-formedness of a list of values. -/
def wfElems : List JVal → Bool
  | [] => true
  | e :: es => wfVal e && wfElems es
/-- Well-formedness of object members. -/
def wfFields : List (String × JVal) → Bool
  | [] => true
  | (k, v) :: fs => safeStr k && wfVal v && wfFields fs
end

/-- A well-formed metadata entry: a well-formed plain JSON object, the shape
every projected or label-decoded entry has. -/
def wfEntry : JVal → Bool
  | .obj fs => wfFields fs
  | _ => false

/-! ### Model of `JSON.parse` -/

/-- JSON insignificant whitespace. -/
def jsonWs (c : Char) : Bool := c == ' ' || c == '\n' || c == '\t' || c == '\r'

/-- Drop leading JSON whitespace. -/
def skipWs : List Char → List Char
  | c :: cs => if jsonWs c then skipWs cs else c :: cs
  | [] => []

/-- Is the character a decimal digit? -/
def isDigitChar (c : Char) : Bool :=
  decide (48 ≤ c.toNat) && decide (c.toNat ≤ 57)

/-- Does the input not begin with a digit (so that a preceding number
cannot absorb it)? -/
def noDigitHead : List Char → Bool
  | [] => true
  | c :: _ => !isDigitChar c

/-- Split off the longest leading run of decimal digits. -/
def grabDigits : List Char → List Char × List Char
  | c :: cs =>
    if isDigitChar c then
      let p := grabDigits cs
      (c :: p.1, p.2)
    else ([], c :: cs)
  | [] => ([], [])

/-- Numeric value of a digit run. -/
def digitsVal (ds : List Char) : Nat :=
  ds.foldl (fun acc c => acc * 10 + (c.toNat - 48)) 0

/-- Read a nonempty run of digits as a natural number. -/
def readNat (cs : List Char) : Option (Nat × List Char) :=
  match grabDigits cs with
  | ([], _) => none
  | (ds, rest) => some (digitsVal ds, rest)

/-- Value of one hexadecimal digit. -/
def hexDigitVal (c : Char) : Option Nat :=
  if '0' ≤ c ∧ c ≤ '9' then some (c.toNat - 48)
  else if 'a' ≤ c ∧ c ≤ 'f' then some (c.toNat - 87)
  else if 'A' ≤ c ∧ c ≤ 'F' then some (c.toNat - 55)
  else none

/-- Meaning of a single-character string escape. -/
def escMeaning (c : Char) : Option Char :=
  if c = '"' then some '"'
  else if c = '\\' then some '\\'
  else if c = '/' then some '/'
  else if c = 'n' then some '\n'
  else if c = 't' then some '\t'
  else if c = 'r' then some '\r'
  else if c = 'b' then some (Char.ofNat 8)
  else if c = 'f' then some (Char.ofNat 12)
  else none

/-- Parse the body of a JSON string literal (after the opening quote) up to
and including the closing quote, returning the decoded characters.  A `\u`
escape with fewer than four following characters falls through to the
single-character escape case (where `escMeaning 'u' = none` rejects it). -/
def readStrBody : List Char → Option (List Char × List Char)
  | [] => none
  | '"' :: cs => some ([], cs)
  | '\\' :: 'u' :: h1 :: h2 :: h3 :: h4 :: cs =>
    (match hexDigitVal h1, hexDigitVal h2, hexDigitVal h3, hexDigitVal h4 with
     | some a, some b, some c3, some d4 =>
       (fun p => (Char.ofNat (((a * 16 + b) * 16 + c3) * 16 + d4) :: p.1, p.2)) <$>
         readStrBody cs
     | _, _, _, _ => none)
  | '\\' :: d :: cs =>
    (match escMeaning d with
     | some ch => (fun p => (ch :: p.1, p.2)) <$> readStrBody cs
     | none => none)
  | ['\\'] => none
  | c :: cs =>
    if c.toNat < 32 then none
    else (fun p => (c :: p.1, p.2)) <$> readStrBody cs

mutual
/-- Model of `JSON.parse`, value level: parse one JSON value after optional
leading whitespace.  The fuel argument only bounds recursion depth; the
top-level entry point supplies enough for any input. -/
def parseVal : Nat → List Char → Option (JVal × List Char)
  | 0, _ => none
  | f + 1, cs =>
    match skipWs cs with
    | [] => none
    | c :: r =>
      if c = 'n' then
        match r with
        | 'u' :: 'l' :: 'l' :: r' => some (.null, r')
        | _ => none
      else if c = 't' then
        match r with
        | 'r' :: 'u' :: 'e' :: r' => some (.bool true, r')
        | _ => none
      else if c = 'f' then
        match r with
        | 'a' :: 'l' :: 's' :: 'e' :: r' => some (.bool false, r')
        | _ => none
      else if c = '"' then
        match readStrBody r with
        | some (body, r') => some (.str (String.mk body), r')
        | none => none
      else if c = '[' then
        match skipWs r with
        | d :: r' =>
          if d = ']' then some (.arr [], r')
          else
            match parseElems f (d :: r') with
            | some (es, r'') => some (.arr es, r'')
            | none => none
        | [] => none
      else if c = curlyOpen then
        match skipWs r with
        | d :: r' =>
          if d = curlyClose then some (.obj [], r')
          else
            match parseFields f (d :: r') with
            | some (fs, r'') => some (.obj fs, r'')
            | none => none
        | [] => none
      else if c = '-' then
        match readNat r with
        | some (k, r') => some (.num (-(k : Int)), r')
        | none => none
      else if isDigitChar c then
        match readNat (c :: r) with
        | some (k, r') => some (.num (k : Int), r')
        | none => none
      else none
/-- One or more comma-separated array elements followed by `]`. -/
def parseElems : Nat → List Char → Option (List JVal × List Char)
  | 0, _ => none
  | f + 1, cs =>
    match parseVal f cs with
    | none => none
    | some (v, r) =>
      match skipWs r with
      | d :: r' =>
        if d = ',' then
          match parseElems f r' with
          | some (vs, r'') => some (v :: vs, r'')
          | none => none
        else if d = ']' then some ([v], r')
        else none
      | [] => none
/-- One or more comma-separated object members followed by the closing
brace. -/
def parseFields : Nat → List Char → Option (List (String × JVal) × List Char)
  | 0, _ => none
  | f + 1, cs =>
    match skipWs cs with
    | c :: r =>
      if c = '"' then
        match readStrBody r with
        | none => none
        | some (key, r1) =>
          match skipWs r1 with
          | d :: r2 =>
            if d = ':' then
              match parseVal f r2 with
              | none => none
              | some (v, r3) =>
                match skipWs r3 with
                | e :: r4 =>
                  if e = ',' then
                    match parseFields f r4 with
                    | some (fs, r5) => some ((String.mk key, v) :: fs, r5)
                    | none => none
                  else if e = curlyClose then some ([(String.mk key, v)], r4)
                  else none
                | [] => none
            else none
          | [] => none
      else none
    | [] => none
end

/-- Model of `JSON.parse` on a whole string: `none` models a thrown
`SyntaxError`. -/
def jsonParse (s : String) : Option JVal :=
  match parseVal (s.data.length + 1) s.data with
  | some (v, r) => if skipWs r = [] then some v else none
  | none => none

/-- Can the character begin a serialized JSON value (not whitespace, not a
closing delimiter)?  Every `emitVal` output begins with such a character. -/
def starterChar (c : Char) : Bool :=
  !jsonWs c && !(c == ']') && !(c == curlyClose)

/-! ### Label escaping (`toLabelString`)

The source escapes with `.replace(/(?=["\\$])/g, '\\')`: the zero-width
lookahead matches before every `"`, `\` or `$`, and the replacement inserts
one backslash there without consuming anything. -/

/-- The characters the label-escaping regex fires in front of. -/
def labelEscaped (c : Char) : Bool := c == '"' || c == '\\' || c == '$'

/-- Model of `.replace(/(?=["\\$])/g, '\\')`: insert a backslash before
every occurrence of `"`, `\` or `$`. -/
def escapeLabelChars : List Char → List Char
  | [] => []
  | c :: cs =>
    if labelEscaped c then '\\' :: c :: escapeLabelChars cs
    else c :: escapeLabelChars cs

/-- Delete the backslashes `escapeLabelChars` inserted: drop each backslash
standing immediately before a `"`, `\` or `$`. -/
def removeEscapes : List Char → List Char
  | [] => []
  | [c] => [c]
  | c :: d :: cs =>
    if c = '\\' ∧ labelEscaped d = true then d :: removeEscapes cs
    else c :: removeEscapes (d :: cs)

/-- Delete line-continuation backslashes: drop each backslash standing
immediately before a newline (the continuation marker the encoder writes
between array elements). -/
def removeContinuations : List Char → List Char
  | [] => []
  | [c] => [c]
  | c :: d :: cs =>
    if c = '\\' ∧ d = '\n' then '\n' :: removeContinuations cs
    else c :: removeContinuations (d :: cs)

/-- Model of `toLabelString` from the source: stringify, then apply the
escaping replace. -/
def toLabelString (obj : JVal) : String :=
  String.mk (escapeLabelChars (emitVal obj))

/-- String-level wrapper for `removeEscapes` (the "unescaping" of the
spec's round-trip property). -/
def stripEscapes (s : String) : String := String.mk (removeEscapes s.data)

/-- String-level wrapper for `removeContinuations`. -/
def stripContinuations (s : String) : String :=
  String.mk (removeContinuations s.data)

/-! ### Shapes of the continued-line label value

`decoratedTail`/`decorated` describe the array-shaped label value after both
escaping layers are undone; `escTail` after only the escape backslashes are
removed; `rawTail` the escaped value as emitted. -/

/-- Tail of the fully stripped array text after one element: either the
closing ` \n]` or a comma followed by the next decorated element. -/
def decoratedTail : List JVal → List Char
  | [] => [' ', '\n', ']']
  | v :: vs => ',' :: ' ' :: '\n' :: (emitVal v ++ decoratedTail vs)

/-- The fully stripped array text after the opening bracket. -/
def decorated : List JVal → List Char
  | [] => [' ', '\n', ']']
  | v :: vs => ' ' :: '\n' :: (emitVal v ++ decoratedTail vs)

/-- Like `decoratedTail` with the line-continuation backslashes intact. -/
def escTail : List JVal → List Char
  | [] => [' ', '\\', '\n', ']']
  | v :: vs => ',' :: ' ' :: '\\' :: '\n' :: (emitVal v ++ escTail vs)

/-- Like `escTail` with the label escaping applied to each element: the
shape the encoder actually emits after the opening bracket. -/
def rawTail : List JVal → List Char
  | [] => [' ', '\\', '\n', ']']
  | v :: vs =>
    ',' :: ' ' :: '\\' :: '\n' :: (escapeLabelChars (emitVal v) ++ rawTail vs)

/-! ### Metadata schema and projection -/

/-- The `pickConfigProperties` constant: the compose-reduced configuration
allow-list. -/
def pickConfigProperties : List String :=
  ["onCreateCommand", "updateContentCommand", "postCreateCommand",
   "postStartCommand", "postAttachCommand", "waitFor", "customizations",
   "remoteUser", "userEnvProbe", "remoteEnv", "overrideCommand",
   "portsAttributes", "otherPortsAttributes", "forwardPorts",
   "shutdownAction", "updateRemoteUserUID", "hostRequirements"]

/-- The `pickSingleContainerConfigProperties` constant: the full single-container
configuration allow-list. -/
def pickSingleContainerConfigProperties : List String :=
  ["mounts", "containerUser", "containerEnv"] ++ pickConfigProperties

/-- The `pickFeatureProperties` constant: the feature allow-list. -/
def pickFeatureProperties : List String :=
  ["id", "init", "privileged", "capAdd", "securityOpt", "entrypoint",
   "mounts", "customizations"]

/-- Model of `pick` from the source: build a fresh object holding, in allow-list
order, exactly the listed keys present on the source object. -/
def pick (obj : Obj) (keys : List String) : Obj :=
  keys.foldl
    (fun res key =>
      match obj.lookup key with
      | some v => res ++ [(key, v)]
      | none => res)
    []

/-- The `FeaturesConfig | Feature[]` union: either a features configuration
(feature sets, each carrying its features) or a plain feature array. -/
inductive FeaturesArg where
  | config (featureSets : List (List Obj))
  | arr (features : List Obj)

/-- The active features in activation order (flattening feature sets when a
`FeaturesConfig` is given), as the source's `concat` of `featureSets`. -/
def activeFeatures : FeaturesArg → List Obj
  | .config sets => sets.flatMap id
  | .arr fs => fs

/-- Model of `getDevcontainerMetadata`: one projected entry per active feature, then
one entry for the configuration, via the compose-reduced allow-list when the
configuration is compose-backed (has a `dockerComposeFile` key). -/
def getDevcontainerMetadata (devContainerConfig : Obj)
    (featuresConfig : FeaturesArg) : List JVal :=
  (activeFeatures featuresConfig).map
      (fun feature => JVal.obj (pick feature pickFeatureProperties)) ++
    [if (devContainerConfig.lookup "dockerComposeFile").isSome then
        JVal.obj (pick devContainerConfig pickConfigProperties)
      else
        JVal.obj (pick devContainerConfig pickSingleContainerConfigProperties)]

/-! ### Image details and label decoding -/

/-- The label name constant `devcontainer.metadata`. -/
def imageMetadataLabel : String := "devcontainer.metadata"

/-- The `Config` part of an inspected image (or container): configured user
and label mapping (absent labels modelled by `none`). -/
structure InspectedConfig where
  User : String
  Labels : Option (List (String × String))

/-- An inspected image's details, as the inspection collaborator returns. -/
structure ImageDetails where
  Config : InspectedConfig

/-- A collaborator call or diagnostic performed during resolution. -/
inductive Event where
  | isFileCheck (path : String)
  | fileRead (path : String)
  | imageInspect (imageName : String)
  | diag (message : String)
deriving Repr, DecidableEq

/-- Model of `internalGetImageMetadata`: decode the `devcontainer.metadata` label of
inspected details.  Returns the decoded entries together with the diagnostic
messages written to the output collaborator.  The parse-error diagnostic's
text abstracts the platform `SyntaxError` message. -/
def internalGetImageMetadata (imageDetails : ImageDetails)
    (experimentalImageMetadata : Bool) : List JVal × List Event :=
  if !experimentalImageMetadata then ([], [])
  else
    let str := (((imageDetails.Config.Labels).getD []).lookup imageMetadataLabel).getD ""
    if str = "" then ([], [])
    else
      match jsonParse str with
      | some (.arr es) => (es, [])
      | some (.obj fs) => ([.obj fs], [])
      | some _ => ([], [.diag ("Invalid image metadata: " ++ str)])
      | none => ([], [.diag ("Error parsing image metadata: " ++ str)])

/-- Model of `getImageMetadata`: simply forwards to `internalGetImageMetadata`. -/
def getImageMetadata (imageDetails : ImageDetails)
    (experimentalImageMetadata : Bool) : List JVal × List Event :=
  internalGetImageMetadata imageDetails experimentalImageMetadata

/-- Decoding a concrete label value: inspected details whose label mapping
carries exactly `devcontainer.metadata = text`, with the feature flag on. -/
def decodeLabel (text : String) : List JVal × List Event :=
  internalGetImageMetadata ⟨⟨"", some [(imageMetadataLabel, text)]⟩⟩ true

/-! ### The label directive (`getDevcontainerMetadataLabel`) -/

/-- The merged metadata sequence the label encoder serializes: base-image
entries first, then the entries derived from the current configuration and
features (source lines 222–225). -/
def metadataForLabel (baseImageMetadata : List JVal) (devContainerConfig : Obj)
    (featuresConfig : FeaturesArg) : List JVal :=
  baseImageMetadata ++ getDevcontainerMetadata devContainerConfig featuresConfig

/-- Model of the JavaScript array join with a comma separator. -/
def joinComma : List String → String
  | [] => ""
  | [s] => s
  | s :: rest => s ++ "," ++ joinComma rest

/-- The label value: a single escaped entry, or a continued-line array of
escaped entries (source lines 229–233). -/
def metadataLabelValue (metadata : List JVal) : String :=
  match metadata with
  | [entry] => toLabelString entry
  | _ =>
    "[" ++ joinComma (metadata.map (fun feature => " \\\n" ++ toLabelString feature)) ++
      " \\\n]"

/-- Model of `getDevcontainerMetadataLabel`: the full `LABEL` build directive, or the
empty string when the flag is off or there is nothing to record. -/
def getDevcontainerMetadataLabel (baseImageMetadata : List JVal)
    (devContainerConfig : Obj) (featuresConfig : FeaturesArg)
    (experimentalImageMetadata : Bool) : String :=
  if !experimentalImageMetadata then ""
  else
    let metadata := metadataForLabel baseImageMetadata devContainerConfig featuresConfig
    if metadata.length = 0 then ""
    else "LABEL " ++ imageMetadataLabel ++ "=\"" ++ metadataLabelValue metadata ++ "\""

/-! ### Build-info resolution -/

/-- The resolver's output: effective user and metadata sequence. -/
structure ImageBuildInfo where
  user : String
  metadata : List JVal
deriving Repr

/-- Model of `internalGetImageBuildInfoFromDockerfile`: find the `USER` directive and
base image in the Dockerfile text, inspect the base image when one is named,
and resolve user and metadata.  The Dockerfile-parsing collaborators
(`findUserStatement`, `findBaseImage`) and the inspection collaborator are
parameters; the returned trace records the inspection call and any
diagnostics from label decoding. -/
def internalGetImageBuildInfoFromDockerfile
    (inspectDockerImage : String → ImageDetails)
    (findUserStatement : String → Option String)
    (findBaseImage : String → Option String)
    (dockerfile : String) (experimentalImageMetadata : Bool) :
    ImageBuildInfo × List Event :=
  let dockerfileUser := findUserStatement dockerfile
  let baseImage := findBaseImage dockerfile
  let inspected : Option ImageDetails × List Event :=
    match baseImage with
    | some b => if b ≠ "" then (some (inspectDockerImage b), [.imageInspect b]) else (none, [])
    | none => (none, [])
  let imageDetails := inspected.1
  let u1 := dockerfileUser.getD ""
  let u2 := (imageDetails.map (fun d => d.Config.User)).getD ""
  let user := if u1 ≠ "" then u1 else if u2 ≠ "" then u2 else "root"
  let meta : List JVal × List Event :=
    match imageDetails with
    | some d => getImageMetadata d experimentalImageMetadata
    | none => ([], [])
  (⟨user, meta.1⟩, inspected.2 ++ meta.2)

/-- Model of `getImageBuildInfoFromImage`: inspect the named image, resolve the user
from its configuration (falling back to `root`), decode its label. -/
def getImageBuildInfoFromImage (inspectDockerImage : String → ImageDetails)
    (imageName : String) (experimentalImageMetadata : Bool) :
    (ImageBuildInfo × ImageDetails) × List Event :=
  let imageDetails := inspectDockerImage imageName
  let user := if imageDetails.Config.User ≠ "" then imageDetails.Config.User else "root"
  let meta := getImageMetadata imageDetails experimentalImageMetadata
  ((⟨user, meta.1⟩, imageDetails), .imageInspect imageName :: meta.2)

/-- Errors: a `ContainerError` (a structured configuration error) versus a plain
thrown `Error`. -/
inductive ResolveError where
  | containerError (description : String)
  | plainError (message : String)
deriving Repr, DecidableEq

/-- The three mutually exclusive configuration shapes `getImageBuildInfo`
branches on (`isDockerFileConfig`, presence of `dockerComposeFile`, else a
plain image reference).  Each carries its raw configuration object plus the
typed fields the resolver reads. -/
inductive DevContainerConfig where
  | dockerfileConfig (data : Obj)
  | composeConfig (data : Obj) (service : String) (dockerComposeFile : JVal)
  | imageConfig (data : Obj) (image : String)

/-- The resolved Compose model: the service mapping (possibly absent). -/
structure ComposeConfig where
  services : Option (List (String × Obj))

/-- The external collaborators `getImageBuildInfo` consumes: file system,
image inspection, path utilities, Dockerfile parsing, and Compose
resolution. -/
structure Collab where
  isFile : String → Bool
  readFile : String → String
  inspectDockerImage : String → ImageDetails
  getDockerfilePath : Obj → String
  findUserStatement : String → Option String
  findBaseImage : String → Option String
  cwd : String
  pathJoin : String → String → String
  pathIsAbsolute : String → Bool
  pathResolve : String → String → String
  getDockerComposeFilePaths : Obj → List String
  readDockerComposeConfig : List String → Option String → ComposeConfig
  getBuildInfoForService : Obj → List String → Option (String × String)

/-- Model of `getImageBuildInfo`: the build-strategy resolver.  Returns the resolved
build info (or the thrown error) together with the trace of collaborator
calls and diagnostics, in program order. -/
def getImageBuildInfo (c : Collab) (config : DevContainerConfig)
    (experimentalImageMetadata : Bool) :
    Except ResolveError ImageBuildInfo × List Event :=
  match config with
  | .dockerfileConfig data =>
    let dockerfilePath := c.getDockerfilePath data
    let checkTrace := [Event.isFileCheck dockerfilePath]
    if !c.isFile dockerfilePath then
      (.error (.containerError ("Dockerfile (" ++ dockerfilePath ++ ") not found.")),
        checkTrace)
    else
      let dockerfile := c.readFile dockerfilePath
      let r := internalGetImageBuildInfoFromDockerfile c.inspectDockerImage
        c.findUserStatement c.findBaseImage dockerfile experimentalImageMetadata
      (.ok r.1, checkTrace ++ [.fileRead dockerfilePath] ++ r.2)
  | .composeConfig data service dockerComposeFile =>
    let cwdEnvFile := c.pathJoin c.cwd ".env"
    let emptyFileList := match dockerComposeFile with | .arr [] => true | _ => false
    let envStep : Option String × List Event :=
      if emptyFileList then
        (if c.isFile cwdEnvFile then some cwdEnvFile else none, [.isFileCheck cwdEnvFile])
      else (none, [])
    let composeFiles := c.getDockerComposeFilePaths data
    let composeConfig := c.readDockerComposeConfig composeFiles envStep.1
    match (composeConfig.services.getD []).lookup service with
    | none =>
      (.error (.plainError ("Service \x27" ++ service ++
          "\x27 configured in devcontainer.json not found in Docker Compose configuration.")),
        envStep.2)
    | some composeService =>
      match c.getBuildInfoForService composeService composeFiles with
      | some (context, dockerfilePath) =>
        let resolved :=
          if c.pathIsAbsolute dockerfilePath then dockerfilePath
          else c.pathResolve context dockerfilePath
        let dockerfile := c.readFile resolved
        let r := internalGetImageBuildInfoFromDockerfile c.inspectDockerImage
          c.findUserStatement c.findBaseImage dockerfile experimentalImageMetadata
        (.ok r.1, envStep.2 ++ [.fileRead resolved] ++ r.2)
      | none =>
        let image := match composeService.lookup "image" with
          | some (.str s) => s
          | _ => ""
        let r := getImageBuildInfoFromImage c.inspectDockerImage image
          experimentalImageMetadata
        (.ok r.1.1, envStep.2 ++ r.2)
  | .imageConfig _ image =>
    let r := getImageBuildInfoFromImage c.inspectDockerImage image
      experimentalImageMetadata
    (.ok r.1.1, r.2)

/-! ### Concrete instances used by witnesses -/

/-- Is the parsed value a plain object or an array (the shapes label
decoding accepts)? -/
def isObjectOrArray : JVal → Bool
  | .obj _ => true
  | .arr _ => true
  | _ => false

/-- A file-system/inspection collaborator whose file checks all fail. -/
def sampleCollab : Collab where
  isFile := fun _ => false
  readFile := fun _ => ""
  inspectDockerImage := fun _ => ⟨⟨"", none⟩⟩
  getDockerfilePath := fun _ => "/workspace/Dockerfile"
  findUserStatement := fun _ => none
  findBaseImage := fun _ => none
  cwd := "/"
  pathJoin := fun a b => a ++ "/" ++ b
  pathIsAbsolute := fun _ => true
  pathResolve := fun a b => a ++ "/" ++ b
  getDockerComposeFilePaths := fun _ => []
  readDockerComposeConfig := fun _ _ => ⟨none⟩
  getBuildInfoForService := fun _ _ => none

/-- Inspection collaborator reporting configured user `bob` and no labels. -/
def inspectBob : String → ImageDetails := fun _ => ⟨⟨"bob", none⟩⟩

/-- Inspection collaborator reporting an empty configured user. -/
def inspectAnon : String → ImageDetails := fun _ => ⟨⟨"", none⟩⟩

/-- Inspection collaborator reporting user `bob` and a malformed metadata
label: identical to `inspectBob` in everything but the labels. -/
def inspectBobLabeled : String → ImageDetails :=
  fun _ => ⟨⟨"bob", some [(imageMetadataLabel, "(not json)")]⟩⟩

/-! ## Theorems -/

/-! ### Association-list and projection lemmas -/

theorem lookup_append_none (k : String) (l₁ l₂ : Obj) (h₁ : l₁.lookup k = none)
    (h₂ : l₂.lookup k = none) : (l₁ ++ l₂).lookup k = none := by
  induction l₁ with
  | nil => simpa using h₂
  | cons p t ih =>
    obtain ⟨a, b⟩ := p
    simp only [List.lookup, List.cons_append] at h₁ ⊢
    cases hk : (k == a) with
    | true => simp [hk] at h₁
    | false => simp only [hk] at h₁ ⊢; exact ih h₁

theorem lookup_pick_go (o : Obj) (k : String) :
    ∀ (keys : List String) (acc : Obj), acc.lookup k = none → k ∉ keys →
      (keys.foldl
        (fun res key =>
          match o.lookup key with
          | some v => res ++ [(key, v)]
          | none => res) acc).lookup k = none := by
  intro keys
  induction keys with
  | nil => intro acc hacc _; simpa using hacc
  | cons key keys ih =>
    intro acc hacc hk
    have hne : k ≠ key := by
      intro h; exact hk (by simp [h])
    have hk' : k ∉ keys := fun h => hk (by simp [h])
    simp only [List.foldl_cons]
    cases h : o.lookup key with
    | none => exact ih acc hacc hk'
    | some v =>
      refine ih _ ?_ hk'
      refine lookup_append_none k acc [(key, v)] hacc ?_
      simp [List.lookup, beq_eq_false_iff_ne.mpr hne]

theorem lookup_pick_of_not_mem (o : Obj) (keys : List String) (k : String)
    (hk : k ∉ keys) : (pick o keys).lookup k = none :=
  lookup_pick_go o k keys [] rfl hk

/-! ### C6 -/

/-- C6: projecting a compose-backed configuration uses the compose-reduced
allow-list, so the configuration's metadata entry never contains the keys
`mounts`, `containerUser` or `containerEnv`, whatever the source object
holds. -/
theorem c6_compose_projection_excludes_keys (cfg : Obj) (fa : FeaturesArg)
    (hcompose : (cfg.lookup "dockerComposeFile").isSome = true) :
    (getDevcontainerMetadata cfg fa).getLast?
        = some (JVal.obj (pick cfg pickConfigProperties))
    ∧ (pick cfg pickConfigProperties).lookup "mounts" = none
    ∧ (pick cfg pickConfigProperties).lookup "containerUser" = none
    ∧ (pick cfg pickConfigProperties).lookup "containerEnv" = none := by
  refine ⟨?_, ?_, ?_, ?_⟩
  · simp [getDevcontainerMetadata, hcompose]
  · exact lookup_pick_of_not_mem _ _ _ (by decide)
  · exact lookup_pick_of_not_mem _ _ _ (by decide)
  · exact lookup_pick_of_not_mem _ _ _ (by decide)

/-- C6 witness: a compose-backed configuration that does carry `mounts`,
`containerUser` and `containerEnv`, all of which the projection drops. -/
theorem c6_witness :
    (getDevcontainerMetadata
        [("dockerComposeFile", JVal.str "docker-compose.yml"),
         ("mounts", JVal.arr [JVal.str "a:/b"]),
         ("containerUser", JVal.str "me"),
         ("containerEnv", JVal.obj [("X", JVal.str "1")])]
        (.arr [])).getLast?
      = some (JVal.obj (pick
          [("dockerComposeFile", JVal.str "docker-compose.yml"),
           ("mounts", JVal.arr [JVal.str "a:/b"]),
           ("containerUser", JVal.str "me"),
           ("containerEnv", JVal.obj [("X", JVal.str "1")])]
          pickConfigProperties))
    ∧ (pick
        [("dockerComposeFile", JVal.str "docker-compose.yml"),
         ("mounts", JVal.arr [JVal.str "a:/b"]),
         ("containerUser", JVal.str "me"),
         ("containerEnv", JVal.obj [("X", JVal.str "1")])]
        pickConfigProperties).lookup "mounts" = none
    ∧ (pick
        [("dockerComposeFile", JVal.str "docker-compose.yml"),
         ("mounts", JVal.arr [JVal.str "a:/b"]),
         ("containerUser", JVal.str "me"),
         ("containerEnv", JVal.obj [("X", JVal.str "1")])]
        pickConfigProperties).lookup "containerUser" = none
    ∧ (pick
        [("dockerComposeFile", JVal.str "docker-compose.yml"),
         ("mounts", JVal.arr [JVal.str "a:/b"]),
         ("containerUser", JVal.str "me"),
         ("containerEnv", JVal.obj [("X", JVal.str "1")])]
        pickConfigProperties).lookup "containerEnv" = none :=
  c6_compose_projection_excludes_keys _ _ rfl

/-! ### C7 -/

/-- C7: the merged metadata sequence the label encoder serializes is the
pure concatenation of the base-layer entries followed by the current-layer
entries: its length is the sum of the two lengths, its first part is exactly
the base sequence and its second part exactly the current sequence, so no
entry is reordered, removed, deduplicated or modified. -/
theorem c7_merge_is_concatenation (base : List JVal) (cfg : Obj)
    (fa : FeaturesArg) :
    (metadataForLabel base cfg fa).length
        = base.length + (getDevcontainerMetadata cfg fa).length
    ∧ (metadataForLabel base cfg fa).take base.length = base
    ∧ (metadataForLabel base cfg fa).drop base.length
        = getDevcontainerMetadata cfg fa := by
  unfold metadataForLabel
  exact ⟨by simp, List.take_left base _, List.drop_left base _⟩

/-! ### C8 -/

theorem removeEscapes_cons_of_ne (c : Char) (xs : List Char) (hc : c ≠ '\\') :
    removeEscapes (c :: xs) = c :: removeEscapes xs := by
  cases xs with
  | nil => simp [removeEscapes]
  | cons d t => simp [removeEscapes, hc]

theorem removeEscapes_escape_append (cs t : List Char) :
    removeEscapes (escapeLabelChars cs ++ t) = cs ++ removeEscapes t := by
  induction cs with
  | nil => simp [escapeLabelChars]
  | cons c cs ih =>
    by_cases hc : labelEscaped c = true
    · simp only [escapeLabelChars, hc, if_pos, List.cons_append]
      rw [show removeEscapes ('\\' :: c :: (escapeLabelChars cs ++ t))
            = c :: removeEscapes (escapeLabelChars cs ++ t) by
          simp [removeEscapes, hc]]
      simp [ih]
    · have hbs : c ≠ '\\' := by
        intro h; rw [h] at hc; exact hc (by decide)
      simp only [escapeLabelChars, hc, if_neg, List.cons_append, Bool.not_eq_true]
      rw [removeEscapes_cons_of_ne c _ hbs, ih]

theorem escapeLabelChars_sublist (cs : List Char) :
    List.Sublist cs (escapeLabelChars cs) := by
  induction cs with
  | nil => simp [escapeLabelChars]
  | cons c cs ih =>
    by_cases hc : labelEscaped c = true
    · simp only [escapeLabelChars, hc, if_pos]
      exact List.Sublist.cons '\\' (List.Sublist.cons₂ c ih)
    · simp only [escapeLabelChars, hc, if_neg, Bool.not_eq_true]
      exact List.Sublist.cons₂ c ih

theorem escapeLabelChars_length (cs : List Char) :
    (escapeLabelChars cs).length
      = cs.length + cs.countP (fun c => labelEscaped c) := by
  induction cs with
  | nil => simp [escapeLabelChars]
  | cons c cs ih =>
    simp only [escapeLabelChars, List.countP_cons]
    split <;> simp_all <;> omega

theorem escapeLabelChars_flatMap (cs : List Char) :
    escapeLabelChars cs
      = cs.flatMap (fun c => if labelEscaped c then ['\\', c] else [c]) := by
  induction cs with
  | nil => simp [escapeLabelChars]
  | cons c cs ih =>
    simp only [escapeLabelChars, List.flatMap_cons]
    split <;> simp [ih]

/-- C8: the escaping step of encoding inserts (without consuming anything) a
single backslash before every occurrence of `"`, `\` or `$`: the output is
the character-wise insert-before expansion, the input survives as a
subsequence, exactly one backslash is added per escaped occurrence, and
deleting the inserted backslashes recovers the original text; `toLabelString`
applies exactly this step to the serialized JSON. -/
theorem c8_escaping_insert_before (s : String) (v : JVal) :
    escapeLabelChars s.data
        = s.data.flatMap (fun c => if labelEscaped c then ['\\', c] else [c])
    ∧ List.Sublist s.data (escapeLabelChars s.data)
    ∧ (escapeLabelChars s.data).length
        = s.data.length + s.data.countP (fun c => labelEscaped c)
    ∧ removeEscapes (escapeLabelChars s.data) = s.data
    ∧ (toLabelString v).data = escapeLabelChars (emitVal v) :=
  ⟨escapeLabelChars_flatMap s.data, escapeLabelChars_sublist s.data,
   escapeLabelChars_length s.data,
   by simpa [removeEscapes] using removeEscapes_escape_append s.data [], rfl⟩

/-! ### C10 -/

/-- C10: the current-layer sequence always has length (number of active
features) + 1: its prefix is one projected entry per active feature in
activation order, and its final element is the single projected entry for
the configuration itself (appended even when that projection is an object
with no fields). -/
theorem c10_current_layer_shape (cfg : Obj) (fa : FeaturesArg) :
    (getDevcontainerMetadata cfg fa).length = (activeFeatures fa).length + 1
    ∧ (getDevcontainerMetadata cfg fa).take (activeFeatures fa).length
        = (activeFeatures fa).map
            (fun feature => JVal.obj (pick feature pickFeatureProperties))
    ∧ (getDevcontainerMetadata cfg fa).drop (activeFeatures fa).length
        = [if (cfg.lookup "dockerComposeFile").isSome then
              JVal.obj (pick cfg pickConfigProperties)
            else JVal.obj (pick cfg pickSingleContainerConfigProperties)] := by
  unfold getDevcontainerMetadata
  refine ⟨by simp, ?_, ?_⟩
  · rw [show (activeFeatures fa).length
        = ((activeFeatures fa).map
            (fun feature => JVal.obj (pick feature pickFeatureProperties))).length
        by simp]
    exact List.take_left _ _
  · rw [show (activeFeatures fa).length
        = ((activeFeatures fa).map
            (fun feature => JVal.obj (pick feature pickFeatureProperties))).length
        by simp]
    exact List.drop_left _ _

/-! ### C1 -/

/-- C1: resolving a Dockerfile-backed configuration whose computed
Dockerfile path fails the existence probe throws a structured
`ContainerError` whose description quotes the computed path, and the
collaborator trace consists of the existence probe alone: no file read and
no image inspection happen. -/
theorem c1_missing_dockerfile_fails_early (c : Collab) (data : Obj)
    (experimentalImageMetadata : Bool)
    (h : c.isFile (c.getDockerfilePath data) = false) :
    getImageBuildInfo c (.dockerfileConfig data) experimentalImageMetadata
      = (.error (.containerError
            ("Dockerfile (" ++ c.getDockerfilePath data ++ ") not found.")),
          [Event.isFileCheck (c.getDockerfilePath data)])
    ∧ (∀ p, Event.fileRead p
        ∉ (getImageBuildInfo c (.dockerfileConfig data) experimentalImageMetadata).2)
    ∧ (∀ n, Event.imageInspect n
        ∉ (getImageBuildInfo c (.dockerfileConfig data) experimentalImageMetadata).2) := by
  refine ⟨by simp [getImageBuildInfo, h], ?_, ?_⟩ <;>
    intro x <;> simp [getImageBuildInfo, h]

/-- C1 witness: with a collaborator whose file checks fail, resolution of a
Dockerfile-backed configuration fails with the configuration error naming
`/workspace/Dockerfile` after the existence probe alone. -/
theorem c1_witness :
    getImageBuildInfo sampleCollab (.dockerfileConfig []) true
      = (.error (.containerError
            ("Dockerfile (" ++ sampleCollab.getDockerfilePath [] ++ ") not found.")),
          [Event.isFileCheck (sampleCollab.getDockerfilePath [])])
    ∧ (∀ p, Event.fileRead p
        ∉ (getImageBuildInfo sampleCollab (.dockerfileConfig []) true).2)
    ∧ (∀ n, Event.imageInspect n
        ∉ (getImageBuildInfo sampleCollab (.dockerfileConfig []) true).2) :=
  c1_missing_dockerfile_fails_early sampleCollab [] true rfl

/-! ### C4 -/

/-- C4: the effective user of a Dockerfile-backed resolution follows the
precedence (explicit `USER` directive) > (inspected base image's configured
user) > `root`: a found non-empty directive wins outright; with no directive
the inspected base image's non-empty configured user is used; with neither a
directive nor a base image the fallback is `root`. -/
theorem c4_user_precedence (inspectDockerImage : String → ImageDetails)
    (findUserStatement findBaseImage : String → Option String)
    (dockerfile : String) (experimentalImageMetadata : Bool) :
    (∀ u, findUserStatement dockerfile = some u → u ≠ "" →
      (internalGetImageBuildInfoFromDockerfile inspectDockerImage findUserStatement
          findBaseImage dockerfile experimentalImageMetadata).1.user = u)
    ∧ (findUserStatement dockerfile = none →
        ∀ b, findBaseImage dockerfile = some b → b ≠ "" →
          (inspectDockerImage b).Config.User ≠ "" →
          (internalGetImageBuildInfoFromDockerfile inspectDockerImage findUserStatement
              findBaseImage dockerfile experimentalImageMetadata).1.user
            = (inspectDockerImage b).Config.User)
    ∧ (findUserStatement dockerfile = none → findBaseImage dockerfile = none →
        (internalGetImageBuildInfoFromDockerfile inspectDockerImage findUserStatement
            findBaseImage dockerfile experimentalImageMetadata).1.user = "root") := by
  refine ⟨?_, ?_, ?_⟩
  · intro u hu hne
    simp [internalGetImageBuildInfoFromDockerfile, hu, hne]
  · intro hnone b hb hbne hune
    simp [internalGetImageBuildInfoFromDockerfile, hnone, hb, hbne, hune]
  · intro hnone hbnone
    simp [internalGetImageBuildInfoFromDockerfile, hnone, hbnone]

/-- C4 witness: `USER alice` over image user `bob` yields `alice`; no `USER`
with image user `bob` yields `bob`; neither yields `root`. -/
theorem c4_witness :
    (internalGetImageBuildInfoFromDockerfile inspectBob (fun _ => some "alice")
        (fun _ => some "img") "FROM img\nUSER alice" true).1.user = "alice"
    ∧ (internalGetImageBuildInfoFromDockerfile inspectBob (fun _ => none)
        (fun _ => some "img") "FROM img" true).1.user = "bob"
    ∧ (internalGetImageBuildInfoFromDockerfile inspectBob (fun _ => none)
        (fun _ => none) "RUN true" true).1.user = "root" :=
  ⟨(c4_user_precedence inspectBob (fun _ => some "alice") (fun _ => some "img")
      "FROM img\nUSER alice" true).1 "alice" rfl (by decide),
   (c4_user_precedence inspectBob (fun _ => none) (fun _ => some "img")
      "FROM img" true).2.1 rfl "img" rfl (by decide) (by decide),
   (c4_user_precedence inspectBob (fun _ => none) (fun _ => none)
      "RUN true" true).2.2 rfl rfl⟩

/-! ### C9 -/

/-- C9: an empty-string user is treated as absent at every precedence level:
an inspected image whose configured user is empty resolves to `root`; a
Dockerfile `USER` lookup returning the empty string falls through to the
base image's non-empty user, or to `root` when the base image's user is also
empty or no base image exists. -/
theorem c9_empty_user_falls_through (inspectDockerImage : String → ImageDetails)
    (findUserStatement findBaseImage : String → Option String)
    (dockerfile imageName : String) (experimentalImageMetadata : Bool) :
    ((inspectDockerImage imageName).Config.User = "" →
      (getImageBuildInfoFromImage inspectDockerImage imageName
          experimentalImageMetadata).1.1.user = "root")
    ∧ (findUserStatement dockerfile = some "" →
        ∀ b, findBaseImage dockerfile = some b → b ≠ "" →
          (inspectDockerImage b).Config.User ≠ "" →
          (internalGetImageBuildInfoFromDockerfile inspectDockerImage findUserStatement
              findBaseImage dockerfile experimentalImageMetadata).1.user
            = (inspectDockerImage b).Config.User)
    ∧ (findUserStatement dockerfile = some "" →
        ∀ b, findBaseImage dockerfile = some b → b ≠ "" →
          (inspectDockerImage b).Config.User = "" →
          (internalGetImageBuildInfoFromDockerfile inspectDockerImage findUserStatement
              findBaseImage dockerfile experimentalImageMetadata).1.user = "root")
    ∧ (findUserStatement dockerfile = some "" → findBaseImage dockerfile = none →
        (internalGetImageBuildInfoFromDockerfile inspectDockerImage findUserStatement
            findBaseImage dockerfile experimentalImageMetadata).1.user = "root") := by
  refine ⟨?_, ?_, ?_, ?_⟩
  · intro h
    simp [getImageBuildInfoFromImage, h]
  · intro hu b hb hbne hune
    simp [internalGetImageBuildInfoFromDockerfile, hu, hb, hbne, hune]
  · intro hu b hb hbne hue
    simp [internalGetImageBuildInfoFromDockerfile, hu, hb, hbne, hue]
  · intro hu hbnone
    simp [internalGetImageBuildInfoFromDockerfile, hu, hbnone]

/-- C9 witness: empty image user yields `root`; an empty `USER` lookup falls
through to image user `bob`, to `root` when the image user is empty too, and
to `root` with no base image. -/
theorem c9_witness :
    (getImageBuildInfoFromImage inspectAnon "img" true).1.1.user = "root"
    ∧ (internalGetImageBuildInfoFromDockerfile inspectBob (fun _ => some "")
        (fun _ => some "img") "FROM img" true).1.user = "bob"
    ∧ (internalGetImageBuildInfoFromDockerfile inspectAnon (fun _ => some "")
        (fun _ => some "img") "FROM img" true).1.user = "root"
    ∧ (internalGetImageBuildInfoFromDockerfile inspectAnon (fun _ => some "")
        (fun _ => none) "RUN true" true).1.user = "root" :=
  ⟨(c9_empty_user_falls_through inspectAnon (fun _ => some "") (fun _ => some "img")
      "FROM img" "img" true).1 rfl,
   (c9_empty_user_falls_through inspectBob (fun _ => some "") (fun _ => some "img")
      "FROM img" "img" true).2.1 rfl "img" rfl (by decide) (by decide),
   (c9_empty_user_falls_through inspectAnon (fun _ => some "") (fun _ => some "img")
      "FROM img" "img" true).2.2.1 rfl "img" rfl (by decide) rfl,
   (c9_empty_user_falls_through inspectAnon (fun _ => some "") (fun _ => none)
      "RUN true" "img" true).2.2.2 rfl rfl⟩

/-! ### C2 -/

/-- C2 counterexample: with the flag disabled, the Dockerfile-backed
resolution returns the empty metadata sequence, not the (always non-empty)
config-derived sequence the claim states. -/
theorem c2_counterexample :
    (internalGetImageBuildInfoFromDockerfile inspectBob (fun _ => none)
        (fun _ => some "base") "FROM base" false).1.metadata
      ≠ getDevcontainerMetadata [] (.arr []) := by
  intro h
  rw [show (internalGetImageBuildInfoFromDockerfile inspectBob (fun _ => none)
      (fun _ => some "base") "FROM base" false).1.metadata = [] from rfl] at h
  rw [show getDevcontainerMetadata [] (.arr []) = [JVal.obj []] from rfl] at h
  exact List.noConfusion h

/-- C2 (amended): with the flag disabled, the Dockerfile-backed resolution
returns the empty metadata sequence — no base-image contribution and no
config projection at this stage — writes no diagnostic, and never decodes
the base image's metadata label: its outcome is unchanged under any change
to the inspected image's labels. -/
theorem c2_flag_disabled_empty_metadata (inspectDockerImage : String → ImageDetails)
    (findUserStatement findBaseImage : String → Option String) (dockerfile : String) :
    (internalGetImageBuildInfoFromDockerfile inspectDockerImage findUserStatement
        findBaseImage dockerfile false).1.metadata = []
    ∧ (∀ m, Event.diag m
        ∉ (internalGetImageBuildInfoFromDockerfile inspectDockerImage findUserStatement
            findBaseImage dockerfile false).2)
    ∧ (∀ inspectOther : String → ImageDetails,
        (∀ n, (inspectOther n).Config.User = (inspectDockerImage n).Config.User) →
        internalGetImageBuildInfoFromDockerfile inspectOther findUserStatement
            findBaseImage dockerfile false
          = internalGetImageBuildInfoFromDockerfile inspectDockerImage findUserStatement
              findBaseImage dockerfile false) := by
  refine ⟨?_, ?_, ?_⟩
  · cases hb : findBaseImage dockerfile with
    | none =>
      simp [internalGetImageBuildInfoFromDockerfile, hb]
    | some b =>
      by_cases hbe : b = "" <;>
        simp [internalGetImageBuildInfoFromDockerfile, getImageMetadata,
          internalGetImageMetadata, hb, hbe]
  · intro m
    cases hb : findBaseImage dockerfile with
    | none =>
      simp [internalGetImageBuildInfoFromDockerfile, hb]
    | some b =>
      by_cases hbe : b = "" <;>
        simp [internalGetImageBuildInfoFromDockerfile, getImageMetadata,
          internalGetImageMetadata, hb, hbe]
  · intro inspectOther hg
    cases hb : findBaseImage dockerfile with
    | none =>
      simp [internalGetImageBuildInfoFromDockerfile, hb]
    | some b =>
      by_cases hbe : b = "" <;>
        simp [internalGetImageBuildInfoFromDockerfile, getImageMetadata,
          internalGetImageMetadata, hb, hbe, hg]

/-- C2 witness: concrete Dockerfile resolution with the flag disabled has
empty metadata, and changing only the base image's labels (here: adding a
malformed metadata label) leaves the outcome identical. -/
theorem c2_witness :
    (internalGetImageBuildInfoFromDockerfile inspectBob (fun _ => none)
        (fun _ => some "base") "FROM base" false).1.metadata = []
    ∧ internalGetImageBuildInfoFromDockerfile inspectBobLabeled (fun _ => none)
        (fun _ => some "base") "FROM base" false
      = internalGetImageBuildInfoFromDockerfile inspectBob (fun _ => none)
          (fun _ => some "base") "FROM base" false :=
  ⟨(c2_flag_disabled_empty_metadata inspectBob (fun _ => none)
      (fun _ => some "base") "FROM base").1,
   (c2_flag_disabled_empty_metadata inspectBob (fun _ => none)
      (fun _ => some "base") "FROM base").2.2 inspectBobLabeled (fun _ => rfl)⟩

/-! ### C5 -/

/-- C5 counterexample: the empty label string fails to parse as JSON, yet
decoding it writes no diagnostic at all (the source's truthiness check skips
the string before parsing), contradicting the claimed exactly-one write. -/
theorem c5_counterexample : jsonParse "" = none ∧ decodeLabel "" = ([], []) :=
  ⟨rfl, rfl⟩

/-- C5 (amended): for every non-empty label string whose JSON parse fails or
yields a value that is neither a plain object nor an array, decoding returns
the empty sequence and writes exactly one diagnostic (and, being a total
function, never raises). -/
theorem c5_decode_failure_diagnostics (s : String) (hs : s ≠ "")
    (hbad : jsonParse s = none
      ∨ ∃ v, jsonParse s = some v ∧ isObjectOrArray v = false) :
    (decodeLabel s).1 = [] ∧ (decodeLabel s).2.length = 1 := by
  have hlook : (([(imageMetadataLabel, s)]).lookup imageMetadataLabel) = some s := by
    simp [List.lookup]
  rcases hbad with hnone | ⟨v, hv, hshape⟩
  · simp [decodeLabel, internalGetImageMetadata, hlook, hs, hnone]
  · cases v <;> simp_all [decodeLabel, internalGetImageMetadata, hlook, hs, hv,
      isObjectOrArray]

/-- C5 witness: decoding the non-JSON label value `not json` yields the
empty sequence and exactly one diagnostic write. -/
theorem c5_witness :
    (decodeLabel "not json").1 = [] ∧ (decodeLabel "not json").2.length = 1 :=
  c5_decode_failure_diagnostics "not json" (by decide) (Or.inl rfl)

/-! ### Digit rendering and parsing -/

theorem digitChar_toNat (d : Nat) (h : d < 10) : (digitChar d).toNat = 48 + d := by
  interval_cases d <;> decide

theorem natDigitsGo_acc (n : Nat) :
    ∀ (f : Nat) (acc : List Char), n < f →
      natDigitsGo f n acc = natDigitsGo f n [] ++ acc := by
  induction n using Nat.strong_induction_on with
  | _ n ih =>
    intro f acc hf
    match f, hf with
    | f + 1, _ =>
      by_cases h10 : n < 10
      · simp [natDigitsGo, h10]
      · have hdiv : n / 10 < n := Nat.div_lt_self (by omega) (by omega)
        have hf' : n / 10 < f := by omega
        simp only [natDigitsGo, h10, if_false]
        rw [ih _ hdiv f (digitChar (n % 10) :: acc) hf',
          ih _ hdiv f [digitChar (n % 10)] hf']
        simp

theorem natDigitsGo_fuel (n : Nat) :
    ∀ (f₁ f₂ : Nat), n < f₁ → n < f₂ →
      natDigitsGo f₁ n [] = natDigitsGo f₂ n [] := by
  induction n using Nat.strong_induction_on with
  | _ n ih =>
    intro f₁ f₂ hf₁ hf₂
    match f₁, hf₁, f₂, hf₂ with
    | f₁ + 1, _, f₂ + 1, _ =>
      by_cases h10 : n < 10
      · simp [natDigitsGo, h10]
      · have hdiv : n / 10 < n := Nat.div_lt_self (by omega) (by omega)
        simp only [natDigitsGo, h10, if_false]
        rw [natDigitsGo_acc _ f₁ _ (by omega), natDigitsGo_acc _ f₂ _ (by omega),
          ih _ hdiv f₁ f₂ (by omega) (by omega)]

theorem natDigits_unfold (n : Nat) :
    natDigits n
      = if n < 10 then [digitChar n]
        else natDigits (n / 10) ++ [digitChar (n % 10)] := by
  by_cases h10 : n < 10
  · simp [natDigits, natDigitsGo, h10]
  · have hdiv : n / 10 < n := Nat.div_lt_self (by omega) (by omega)
    rw [if_neg h10]
    show natDigitsGo (n + 1) n [] = natDigits (n / 10) ++ [digitChar (n % 10)]
    rw [show natDigitsGo (n + 1) n []
        = natDigitsGo n (n / 10) [digitChar (n % 10)] by simp [natDigitsGo, h10]]
    rw [natDigitsGo_acc (n / 10) n [digitChar (n % 10)] (by omega),
      natDigitsGo_fuel (n / 10) n (n / 10 + 1) (by omega) (by omega)]
    rfl

theorem natDigits_ne_nil (n : Nat) : natDigits n ≠ [] := by
  rw [natDigits_unfold]
  by_cases h10 : n < 10 <;> simp [h10]

theorem natDigits_all_digit (n : Nat) :
    ∀ c ∈ natDigits n, isDigitChar c = true := by
  induction n using Nat.strong_induction_on with
  | _ n ih =>
    intro c hc
    rw [natDigits_unfold] at hc
    by_cases h10 : n < 10
    · rw [if_pos h10] at hc
      simp only [List.mem_singleton] at hc
      subst hc
      simp only [isDigitChar, digitChar_toNat n h10, Bool.and_eq_true,
        decide_eq_true_eq]
      omega
    · rw [if_neg h10] at hc
      rcases List.mem_append.mp hc with h | h
      · exact ih _ (Nat.div_lt_self (by omega) (by omega)) c h
      · simp only [List.mem_singleton] at h
        subst h
        simp only [isDigitChar, digitChar_toNat _ (Nat.mod_lt n (by omega)),
          Bool.and_eq_true, decide_eq_true_eq]
        omega

theorem foldl_natDigits (n : Nat) :
    ∀ acc : Nat,
      (natDigits n).foldl (fun a c => a * 10 + (c.toNat - 48)) acc
        = acc * 10 ^ (natDigits n).length + n := by
  induction n using Nat.strong_induction_on with
  | _ n ih =>
    intro acc
    rw [natDigits_unfold]
    by_cases h10 : n < 10
    · rw [if_pos h10]
      simp only [List.foldl_cons, List.foldl_nil, List.length_cons, List.length_nil,
        digitChar_toNat n h10, pow_one]
      omega
    · have hdiv : n / 10 < n := Nat.div_lt_self (by omega) (by omega)
      simp only [h10, if_false, List.foldl_append, List.foldl_cons, List.foldl_nil,
        List.length_append, List.length_cons, List.length_nil]
      rw [ih _ hdiv acc, digitChar_toNat _ (Nat.mod_lt n (by omega))]
      rw [pow_succ, ← mul_assoc]
      omega

theorem digitsVal_natDigits (n : Nat) : digitsVal (natDigits n) = n := by
  have h := foldl_natDigits n 0
  simpa [digitsVal] using h

theorem grabDigits_stop (cs : List Char) (h : noDigitHead cs = true) :
    grabDigits cs = ([], cs) := by
  cases cs with
  | nil => rfl
  | cons c t =>
    simp only [noDigitHead, Bool.not_eq_true'] at h
    simp [grabDigits, h]

theorem grabDigits_run (ds : List Char) (rest : List Char)
    (hds : ∀ c ∈ ds, isDigitChar c = true) (hr : noDigitHead rest = true) :
    grabDigits (ds ++ rest) = (ds, rest) := by
  induction ds with
  | nil => simpa using grabDigits_stop rest hr
  | cons c t ih =>
    have hc : isDigitChar c = true := hds c (by simp)
    have ht : ∀ x ∈ t, isDigitChar x = true := fun x hx => hds x (by simp [hx])
    simp [grabDigits, hc, ih ht]

theorem readNat_natDigits (n : Nat) (rest : List Char)
    (hr : noDigitHead rest = true) :
    readNat (natDigits n ++ rest) = some (n, rest) := by
  unfold readNat
  rw [grabDigits_run _ _ (natDigits_all_digit n) hr]
  obtain ⟨c, t, hct⟩ : ∃ c t, natDigits n = c :: t := by
    cases h : natDigits n with
    | nil => exact absurd h (natDigits_ne_nil n)
    | cons c t => exact ⟨c, t, rfl⟩
  rw [hct]
  show some (digitsVal (c :: t), rest) = some (n, rest)
  rw [show digitsVal (c :: t) = n by rw [← hct]; exact digitsVal_natDigits n]

/-! ### Whitespace and string-literal lemmas -/

theorem skipWs_cons_of_not_ws {c : Char} (cs : List Char) (h : jsonWs c = false) :
    skipWs (c :: cs) = c :: cs := by
  simp [skipWs, h]

theorem skipWs_skipWs (cs : List Char) : skipWs (skipWs cs) = skipWs cs := by
  induction cs with
  | nil => rfl
  | cons c t ih =>
    by_cases h : jsonWs c = true
    · simp [skipWs, h, ih]
    · simp [skipWs, h]

theorem parseVal_skipWs (f : Nat) (cs : List Char) :
    parseVal f (skipWs cs) = parseVal f cs := by
  cases f with
  | zero => rfl
  | succ f => simp only [parseVal, skipWs_skipWs]

theorem parseElems_skipWs (f : Nat) (cs : List Char) :
    parseElems f (skipWs cs) = parseElems f cs := by
  cases f with
  | zero => rfl
  | succ f => simp only [parseElems, parseVal_skipWs]

theorem readStrBody_escaped (cs : List Char) :
    ∀ rest : List Char, (∀ c ∈ cs, safeChar c = true) →
      readStrBody (cs.flatMap escapeJsonChar ++ ('"' :: rest)) = some (cs, rest) := by
  induction cs with
  | nil => intro rest _; rfl
  | cons c t ih =>
    intro rest hsafe
    have hc : safeChar c = true := hsafe c (by simp)
    have ht : ∀ x ∈ t, safeChar x = true := fun x hx => hsafe x (by simp [hx])
    by_cases h1 : c = '"'
    · subst h1
      rw [show ('"' :: t).flatMap escapeJsonChar ++ ('"' :: rest)
            = '\\' :: '"' :: (t.flatMap escapeJsonChar ++ ('"' :: rest)) by
          simp [escapeJsonChar],
        show readStrBody ('\\' :: '"' :: (t.flatMap escapeJsonChar ++ ('"' :: rest)))
            = (fun p => ('"' :: p.1, p.2)) <$>
                readStrBody (t.flatMap escapeJsonChar ++ ('"' :: rest)) from rfl,
        ih rest ht]
      rfl
    · by_cases h2 : c = '\\'
      · subst h2
        rw [show ('\\' :: t).flatMap escapeJsonChar ++ ('"' :: rest)
              = '\\' :: '\\' :: (t.flatMap escapeJsonChar ++ ('"' :: rest)) by
            simp [escapeJsonChar],
          show readStrBody ('\\' :: '\\' :: (t.flatMap escapeJsonChar ++ ('"' :: rest)))
              = (fun p => ('\\' :: p.1, p.2)) <$>
                  readStrBody (t.flatMap escapeJsonChar ++ ('"' :: rest)) from rfl,
          ih rest ht]
        rfl
      · by_cases h3 : c = '\n'
        · subst h3
          rw [show ('\n' :: t).flatMap escapeJsonChar ++ ('"' :: rest)
                = '\\' :: 'n' :: (t.flatMap escapeJsonChar ++ ('"' :: rest)) by
              simp [escapeJsonChar],
            show readStrBody ('\\' :: 'n' :: (t.flatMap escapeJsonChar ++ ('"' :: rest)))
                = (fun p => ('\n' :: p.1, p.2)) <$>
                    readStrBody (t.flatMap escapeJsonChar ++ ('"' :: rest)) from rfl,
            ih rest ht]
          rfl
        · by_cases h4 : c = '\t'
          · subst h4
            rw [show ('\t' :: t).flatMap escapeJsonChar ++ ('"' :: rest)
                  = '\\' :: 't' :: (t.flatMap escapeJsonChar ++ ('"' :: rest)) by
                simp [escapeJsonChar],
              show readStrBody ('\\' :: 't' :: (t.flatMap escapeJsonChar ++ ('"' :: rest)))
                  = (fun p => ('\t' :: p.1, p.2)) <$>
                      readStrBody (t.flatMap escapeJsonChar ++ ('"' :: rest)) from rfl,
              ih rest ht]
            rfl
          · by_cases h5 : c = '\r'
            · subst h5
              rw [show ('\r' :: t).flatMap escapeJsonChar ++ ('"' :: rest)
                    = '\\' :: 'r' :: (t.flatMap escapeJsonChar ++ ('"' :: rest)) by
                  simp [escapeJsonChar],
                show readStrBody
                      ('\\' :: 'r' :: (t.flatMap escapeJsonChar ++ ('"' :: rest)))
                    = (fun p => ('\r' :: p.1, p.2)) <$>
                        readStrBody (t.flatMap escapeJsonChar ++ ('"' :: rest)) from rfl,
                ih rest ht]
              rfl
            · have hlt : ¬c.toNat < 32 := by
                simp only [safeChar, Bool.or_eq_true, beq_iff_eq,
                  decide_eq_true_eq] at hc
                rcases hc with ((h | h) | h) | h
                · omega
                · exact absurd h h3
                · exact absurd h h4
                · exact absurd h h5
              rw [show (c :: t).flatMap escapeJsonChar ++ ('"' :: rest)
                    = c :: (t.flatMap escapeJsonChar ++ ('"' :: rest)) by
                  simp [escapeJsonChar, h1, h2, h3, h4, h5],
                readStrBody.eq_6 c _ h1 (fun _ _ _ _ _ hq _ => h2 hq)
                  (fun _ _ hq _ => h2 hq) (fun hq _ => h2 hq),
                if_neg hlt, ih rest ht]
              rfl

/-! ### Heads of serialized values -/

theorem digit_ne (c d : Char) (h : isDigitChar c = true) (hd : isDigitChar d = false) :
    c ≠ d :=
  fun he => by rw [he, hd] at h; exact Bool.false_ne_true h

theorem digit_starter (c : Char) (h : isDigitChar c = true) : starterChar c = true := by
  have h1 : (c == ' ') = false := beq_eq_false_iff_ne.mpr (digit_ne c ' ' h (by decide))
  have h2 : (c == '\n') = false := beq_eq_false_iff_ne.mpr (digit_ne c '\n' h (by decide))
  have h3 : (c == '\t') = false := beq_eq_false_iff_ne.mpr (digit_ne c '\t' h (by decide))
  have h4 : (c == '\r') = false := beq_eq_false_iff_ne.mpr (digit_ne c '\r' h (by decide))
  have h5 : (c == ']') = false := beq_eq_false_iff_ne.mpr (digit_ne c ']' h (by decide))
  have h6 : (c == curlyClose) = false :=
    beq_eq_false_iff_ne.mpr (digit_ne c curlyClose h (by decide))
  simp [starterChar, jsonWs, h1, h2, h3, h4, h5, h6]

theorem natDigits_head (n : Nat) :
    ∃ c t, natDigits n = c :: t ∧ isDigitChar c = true := by
  cases h : natDigits n with
  | nil => exact absurd h (natDigits_ne_nil n)
  | cons c t => exact ⟨c, t, rfl, natDigits_all_digit n c (by rw [h]; simp)⟩

theorem emit_starter (v : JVal) :
    ∃ c t, emitVal v = c :: t ∧ starterChar c = true := by
  cases v with
  | null => exact ⟨'n', _, rfl, by decide⟩
  | bool b =>
    cases b with
    | false => exact ⟨'f', _, rfl, by decide⟩
    | true => exact ⟨'t', _, rfl, by decide⟩
  | num n =>
    by_cases hn : n < 0
    · refine ⟨'-', natDigits (-n).toNat, ?_, by decide⟩
      show emitInt n = _
      simp [emitInt, hn]
    · obtain ⟨c, t, hct, hd⟩ := natDigits_head n.toNat
      refine ⟨c, t, ?_, digit_starter c hd⟩
      show emitInt n = _
      simp [emitInt, hn, hct]
  | str s => exact ⟨'"', _, rfl, by decide⟩
  | arr es => exact ⟨'[', _, rfl, by decide⟩
  | obj fs => exact ⟨curlyOpen, _, rfl, by decide⟩

theorem starter_not_ws (c : Char) (h : starterChar c = true) : jsonWs c = false := by
  simp only [starterChar, Bool.and_eq_true, Bool.not_eq_true'] at h
  exact h.1.1

theorem starter_ne_rbrack (c : Char) (h : starterChar c = true) : c ≠ ']' := by
  simp only [starterChar, Bool.and_eq_true, Bool.not_eq_true'] at h
  exact beq_eq_false_iff_ne.mp h.1.2

theorem starter_ne_rbrace (c : Char) (h : starterChar c = true) : c ≠ curlyClose := by
  simp only [starterChar, Bool.and_eq_true, Bool.not_eq_true'] at h
  exact beq_eq_false_iff_ne.mp h.2

theorem skipWs_emit (v : JVal) (rest : List Char) :
    skipWs (emitVal v ++ rest) = emitVal v ++ rest := by
  obtain ⟨c, t, hct, hst⟩ := emit_starter v
  rw [hct, List.cons_append, skipWs_cons_of_not_ws _ (starter_not_ws c hst)]

/-! ### No raw newline in serialized output -/

theorem escapeJsonChar_no_newline (c : Char) : '\n' ∉ escapeJsonChar c := by
  by_cases h1 : c = '"'
  · subst h1; decide
  · by_cases h2 : c = '\\'
    · subst h2; decide
    · by_cases h3 : c = '\n'
      · subst h3; decide
      · by_cases h4 : c = '\t'
        · subst h4; decide
        · by_cases h5 : c = '\r'
          · subst h5; decide
          · simp only [escapeJsonChar, h1, h2, h3, h4, h5, if_false,
              List.mem_singleton]
            exact fun he => h3 he.symm

theorem emitStr_no_newline (s : String) : '\n' ∉ emitStr s := by
  intro hmem
  simp only [emitStr, List.mem_cons, List.mem_append, List.mem_singleton] at hmem
  rcases hmem with h | h | h
  · exact absurd h (by decide)
  · obtain ⟨c, _, hc⟩ := List.mem_flatMap.mp h
    exact escapeJsonChar_no_newline c hc
  · exact absurd h (by decide)

theorem emitInt_no_newline (n : Int) : '\n' ∉ emitInt n := by
  intro hmem
  unfold emitInt at hmem
  have hdig : ∀ m : Nat, '\n' ∈ natDigits m → False := fun m hm =>
    absurd (natDigits_all_digit m '\n' hm) (by decide)
  by_cases hn : n < 0
  · rw [if_pos hn] at hmem
    rcases List.mem_cons.mp hmem with h | h
    · exact absurd h (by decide)
    · exact hdig _ h
  · rw [if_neg hn] at hmem
    exact hdig _ hmem

mutual
theorem emitVal_no_newline : ∀ v : JVal, wfVal v = true → '\n' ∉ emitVal v
  | .null, _ => by decide
  | .bool true, _ => by decide
  | .bool false, _ => by decide
  | .num n, _ => emitInt_no_newline n
  | .str s, _ => emitStr_no_newline s
  | .arr es, h => by
    intro hmem
    simp only [emitVal, List.mem_cons, List.mem_append, List.mem_singleton] at hmem
    rcases hmem with hx | hx | hx
    · exact absurd hx (by decide)
    · exact emitElems_no_newline es (by simpa [wfVal] using h) hx
    · exact absurd hx (by decide)
  | .obj fs, h => by
    intro hmem
    simp only [emitVal, List.mem_cons, List.mem_append, List.mem_singleton] at hmem
    rcases hmem with hx | hx | hx
    · exact absurd hx (by decide)
    · exact emitFields_no_newline fs (by simpa [wfVal] using h) hx
    · exact absurd hx (by decide)
theorem emitElems_no_newline : ∀ es : List JVal, wfElems es = true → '\n' ∉ emitElems es
  | [], _ => by decide
  | [e], h => by
    have he : wfVal e = true := by simpa [wfElems] using h
    simpa [emitElems] using emitVal_no_newline e he
  | e :: e' :: es, h => by
    have he : wfVal e = true := by simp [wfElems] at h; tauto
    have ht : wfElems (e' :: es) = true := by simp_all [wfElems]
    intro hmem
    simp only [emitElems, List.mem_append, List.mem_cons] at hmem
    rcases hmem with hx | hx | hx
    · exact emitVal_no_newline e he hx
    · exact absurd hx (by decide)
    · exact emitElems_no_newline (e' :: es) ht hx
theorem emitFields_no_newline :
    ∀ fs : List (String × JVal), wfFields fs = true → '\n' ∉ emitFields fs
  | [], _ => by decide
  | [(k, v)], h => by
    have hv : wfVal v = true := by simp [wfFields] at h; tauto
    intro hmem
    simp only [emitFields, List.mem_append, List.mem_cons] at hmem
    rcases hmem with hx | hx | hx
    · exact emitStr_no_newline k hx
    · exact absurd hx (by decide)
    · exact emitVal_no_newline v hv hx
  | (k, v) :: f' :: fs, h => by
    have hv : wfVal v = true := by simp [wfFields] at h; tauto
    have ht : wfFields (f' :: fs) = true := by simp_all [wfFields]
    intro hmem
    rw [show emitFields ((k, v) :: f' :: fs)
        = emitStr k ++ ':' :: emitVal v ++ ',' :: emitFields (f' :: fs)
        from rfl] at hmem
    rcases List.mem_append.mp hmem with hx | hx
    · rcases List.mem_append.mp hx with hx | hx
      · exact emitStr_no_newline k hx
      · rcases List.mem_cons.mp hx with hx | hx
        · exact absurd hx (by decide)
        · exact emitVal_no_newline v hv hx
    · rcases List.mem_cons.mp hx with hx | hx
      · exact absurd hx (by decide)
      · exact emitFields_no_newline (f' :: fs) ht hx
end

/-! ### Continuation-stripping lemmas -/

theorem removeContinuations_cons (c : Char) (xs : List Char)
    (h : c ≠ '\\' ∨ xs.head? ≠ some '\n') :
    removeContinuations (c :: xs) = c :: removeContinuations xs := by
  cases xs with
  | nil => rfl
  | cons d t =>
    have hcond : ¬(c = '\\' ∧ d = '\n') := by
      rcases h with h | h
      · exact fun hx => h hx.1
      · exact fun hx => h (by simp [hx.2])
    rw [show removeContinuations (c :: d :: t)
        = if c = '\\' ∧ d = '\n' then '\n' :: removeContinuations t
          else c :: removeContinuations (d :: t) from rfl,
      if_neg hcond]

theorem removeContinuations_pair (xs : List Char) :
    removeContinuations ('\\' :: '\n' :: xs) = '\n' :: removeContinuations xs := rfl

theorem removeEscapes_bsnl (xs : List Char) :
    removeEscapes ('\\' :: '\n' :: xs) = '\\' :: '\n' :: removeEscapes xs := by
  rw [show removeEscapes ('\\' :: '\n' :: xs)
      = '\\' :: removeEscapes ('\n' :: xs) from rfl]
  rw [removeEscapes_cons_of_ne '\n' xs (by decide)]

theorem removeContinuations_append (s : List Char) :
    ∀ t : List Char, '\n' ∉ s → (∀ d, t.head? = some d → d ≠ '\n') →
      removeContinuations (s ++ t) = s ++ removeContinuations t := by
  induction s with
  | nil => intro t _ _; rfl
  | cons c s ih =>
    intro t hnl ht
    have hc : c ≠ '\n' := fun he => hnl (by simp [he])
    have hs : '\n' ∉ s := fun he => hnl (by simp [he])
    have hhead : c ≠ '\\' ∨ (s ++ t).head? ≠ some '\n' := by
      cases s with
      | nil =>
        cases t with
        | nil => exact Or.inr (by simp)
        | cons d t' =>
          exact Or.inr (fun he => ht d rfl (Option.some.inj he))
      | cons e s' =>
        refine Or.inr ?_
        have he : e ≠ '\n' := fun hx => hnl (by simp [hx])
        exact fun hx => he (Option.some.inj hx)
    rw [List.cons_append, removeContinuations_cons c (s ++ t) hhead, ih t hs ht]
    rfl

/-! ### Step lemmas for the value parser -/

theorem parseVal_null (f : Nat) (r : List Char) :
    parseVal (f + 1) ('n' :: 'u' :: 'l' :: 'l' :: r) = some (.null, r) := rfl

theorem parseVal_true (f : Nat) (r : List Char) :
    parseVal (f + 1) ('t' :: 'r' :: 'u' :: 'e' :: r) = some (.bool true, r) := rfl

theorem parseVal_false (f : Nat) (r : List Char) :
    parseVal (f + 1) ('f' :: 'a' :: 'l' :: 's' :: 'e' :: r) = some (.bool false, r) := rfl

theorem parseVal_quote (f : Nat) (r : List Char) :
    parseVal (f + 1) ('"' :: r)
      = (match readStrBody r with
         | some (body, r') => some (.str (String.mk body), r')
         | none => none) := rfl

theorem parseVal_lbrack (f : Nat) (r : List Char) :
    parseVal (f + 1) ('[' :: r)
      = (match skipWs r with
         | d :: r' =>
           if d = ']' then some (.arr [], r')
           else
             match parseElems f (d :: r') with
             | some (es, r'') => some (.arr es, r'')
             | none => none
         | [] => none) := rfl

theorem parseVal_lbrace (f : Nat) (r : List Char) :
    parseVal (f + 1) (curlyOpen :: r)
      = (match skipWs r with
         | d :: r' =>
           if d = curlyClose then some (.obj [], r')
           else
             match parseFields f (d :: r') with
             | some (fs, r'') => some (.obj fs, r'')
             | none => none
         | [] => none) := rfl

theorem parseVal_dash (f : Nat) (r : List Char) :
    parseVal (f + 1) ('-' :: r)
      = (match readNat r with
         | some (k, r') => some (.num (-(k : Int)), r')
         | none => none) := rfl

theorem parseVal_digit (c : Char) (hd : isDigitChar c = true) (f : Nat)
    (r : List Char) :
    parseVal (f + 1) (c :: r)
      = (match readNat (c :: r) with
         | some (k, r') => some (.num (k : Int), r')
         | none => none) := by
  have hws : jsonWs c = false := starter_not_ws c (digit_starter c hd)
  have h1 : c ≠ 'n' := digit_ne c 'n' hd (by decide)
  have h2 : c ≠ 't' := digit_ne c 't' hd (by decide)
  have h3 : c ≠ 'f' := digit_ne c 'f' hd (by decide)
  have h4 : c ≠ '"' := digit_ne c '"' hd (by decide)
  have h5 : c ≠ '[' := digit_ne c '[' hd (by decide)
  have h6 : c ≠ curlyOpen := digit_ne c curlyOpen hd (by decide)
  have h7 : c ≠ '-' := digit_ne c '-' hd (by decide)
  simp only [parseVal, skipWs_cons_of_not_ws _ hws]
  simp [h1, h2, h3, h4, h5, h6, h7, hd]

/-- Parsing a serialized integer recovers it, whenever what follows cannot
extend the digit run. -/
theorem parseVal_num (n : Int) (f : Nat) (rest : List Char)
    (hr : noDigitHead rest = true) :
    parseVal (f + 1) (emitInt n ++ rest) = some (.num n, rest) := by
  by_cases hneg : n < 0
  · rw [show emitInt n ++ rest = '-' :: (natDigits (-n).toNat ++ rest) by
      simp [emitInt, hneg]]
    rw [parseVal_dash, readNat_natDigits _ _ hr]
    show some (JVal.num (-(((-n).toNat : Int))), rest) = some (.num n, rest)
    have : -(((-n).toNat : Int)) = n := by
      rw [Int.toNat_of_nonneg (by omega)]; ring
    rw [this]
  · obtain ⟨c, t, hct, hd⟩ := natDigits_head n.toNat
    rw [show emitInt n ++ rest = c :: (t ++ rest) by simp [emitInt, hneg, hct]]
    rw [parseVal_digit c hd]
    rw [show c :: (t ++ rest) = natDigits n.toNat ++ rest by simp [hct]]
    rw [readNat_natDigits _ _ hr]
    show some (JVal.num ((n.toNat : Int)), rest) = some (.num n, rest)
    rw [show ((n.toNat : Int)) = n from Int.toNat_of_nonneg (by omega)]

theorem parseElems_step (f : Nat) (cs : List Char) :
    parseElems (f + 1) cs
      = (match parseVal f cs with
         | none => none
         | some (v, r) =>
           match skipWs r with
           | d :: r' =>
             if d = ',' then
               match parseElems f r' with
               | some (vs, r'') => some (v :: vs, r'')
               | none => none
             else if d = ']' then some ([v], r')
             else none
           | [] => none) := rfl

theorem parseFields_step (f : Nat) (cs : List Char) :
    parseFields (f + 1) cs
      = (match skipWs cs with
         | c :: r =>
           if c = '"' then
             match readStrBody r with
             | none => none
             | some (key, r1) =>
               match skipWs r1 with
               | d :: r2 =>
                 if d = ':' then
                   match parseVal f r2 with
                   | none => none
                   | some (v, r3) =>
                     match skipWs r3 with
                     | e :: r4 =>
                       if e = ',' then
                         match parseFields f r4 with
                         | some (fs, r5) => some ((String.mk key, v) :: fs, r5)
                         | none => none
                       else if e = curlyClose then some ([(String.mk key, v)], r4)
                       else none
                     | [] => none
                 else none
               | [] => none
           else none
         | [] => none) := rfl

theorem emitElems_head (e : JVal) (es : List JVal) :
    ∃ c t, emitElems (e :: es) = c :: t ∧ starterChar c = true := by
  obtain ⟨c, t', hct, hst⟩ := emit_starter e
  cases es with
  | nil => exact ⟨c, t', by simpa [emitElems] using hct, hst⟩
  | cons x xs =>
    exact ⟨c, t' ++ ',' :: emitElems (x :: xs), by simp [emitElems, hct], hst⟩

theorem emitFields_head (k : String) (v : JVal) (fs : List (String × JVal)) :
    ∃ t, emitFields ((k, v) :: fs) = '"' :: t := by
  cases fs with
  | nil =>
    exact ⟨k.data.flatMap escapeJsonChar ++ '"' :: ':' :: emitVal v,
      by simp [emitFields, emitStr]⟩
  | cons f' fs' =>
    exact ⟨k.data.flatMap escapeJsonChar
        ++ '"' :: ':' :: (emitVal v ++ ',' :: emitFields (f' :: fs')),
      by simp [emitFields, emitStr]⟩

/-! ### The codec round trip, value level -/

theorem skipWs_cons_nws {c : Char} (h : jsonWs c = false) (cs : List Char) :
    skipWs (c :: cs) = c :: cs := by
  simp [skipWs, h]

theorem stringMk_data (s : String) : String.mk s.data = s := rfl

mutual
theorem rt_val : ∀ (v : JVal) (f : Nat) (rest : List Char), wfVal v = true →
    (emitVal v).length < f → noDigitHead rest = true →
    parseVal f (emitVal v ++ rest) = some (v, rest)
  | .null, f, rest, _, hf, _ => by
    match f, hf with
    | f + 1, _ => exact parseVal_null f rest
  | .bool true, f, rest, _, hf, _ => by
    match f, hf with
    | f + 1, _ => exact parseVal_true f rest
  | .bool false, f, rest, _, hf, _ => by
    match f, hf with
    | f + 1, _ => exact parseVal_false f rest
  | .num n, f, rest, _, hf, hr => by
    match f, hf with
    | f + 1, _ => exact parseVal_num n f rest hr
  | .str s, f, rest, hw, hf, _ => by
    match f, hf with
    | f + 1, _ =>
      have hsafe : ∀ c ∈ s.data, safeChar c = true := by
        simpa [wfVal, safeStr, List.all_eq_true] using hw
      rw [show emitVal (.str s) ++ rest
          = '"' :: (s.data.flatMap escapeJsonChar ++ ('"' :: rest)) by
        simp [emitVal, emitStr]]
      rw [parseVal_quote, readStrBody_escaped s.data rest hsafe]
  | .arr [], f, rest, _, hf, _ => by
    match f, hf with
    | f + 1, _ =>
      rw [show emitVal (.arr []) ++ rest = '[' :: (']' :: rest) by
        simp [emitVal, emitElems]]
      rw [parseVal_lbrack]
      rfl
  | .arr (e :: es), f, rest, hw, hf, _ => by
    have hwe : wfVal e = true ∧ wfElems es = true := by
      simpa [wfVal, wfElems, Bool.and_eq_true] using hw
    match f, hf with
    | f + 1, hf =>
      obtain ⟨c, t, hct, hst⟩ := emitElems_head e es
      have hkey := rt_elems e es f rest hwe.1 hwe.2 (by
        have hlen : (emitVal (.arr (e :: es))).length
            = (emitElems (e :: es)).length + 2 := by simp [emitVal]
        omega)
      rw [show emitVal (.arr (e :: es)) ++ rest
          = '[' :: (emitElems (e :: es) ++ (']' :: rest)) by simp [emitVal]]
      rw [parseVal_lbrack, hct, List.cons_append,
        skipWs_cons_nws (starter_not_ws c hst)]
      simp only [if_neg (starter_ne_rbrack c hst)]
      rw [show c :: (t ++ ']' :: rest) = emitElems (e :: es) ++ (']' :: rest) by
        rw [hct, List.cons_append]]
      rw [hkey]
  | .obj [], f, rest, _, hf, _ => by
    match f, hf with
    | f + 1, _ =>
      rw [show emitVal (.obj []) ++ rest = curlyOpen :: (curlyClose :: rest) by
        simp [emitVal, emitFields]]
      rw [parseVal_lbrace]
      rfl
  | .obj ((k, v) :: fs), f, rest, hw, hf, _ => by
    have hwp : safeStr k = true ∧ wfVal v = true ∧ wfFields fs = true := by
      simpa [wfVal, wfFields, Bool.and_eq_true, and_assoc] using hw
    match f, hf with
    | f + 1, hf =>
      obtain ⟨t, hct⟩ := emitFields_head k v fs
      have hkey := rt_fields k v fs f rest hwp.1 hwp.2.1 hwp.2.2 (by
        have hlen : (emitVal (.obj ((k, v) :: fs))).length
            = (emitFields ((k, v) :: fs)).length + 2 := by simp [emitVal]
        omega)
      rw [show emitVal (.obj ((k, v) :: fs)) ++ rest
          = curlyOpen :: (emitFields ((k, v) :: fs) ++ (curlyClose :: rest)) by
        simp [emitVal]]
      rw [parseVal_lbrace, hct, List.cons_append,
        skipWs_cons_nws (by decide : jsonWs '"' = false)]
      simp only [if_neg (by decide : ¬('"' = curlyClose))]
      rw [show '"' :: (t ++ curlyClose :: rest)
          = emitFields ((k, v) :: fs) ++ (curlyClose :: rest) by
        rw [hct, List.cons_append]]
      rw [hkey]
termination_by v _ _ _ _ _ => sizeOf v
theorem rt_elems : ∀ (e : JVal) (es : List JVal) (f : Nat) (rest : List Char),
    wfVal e = true → wfElems es = true →
    (emitElems (e :: es)).length + 1 < f →
    parseElems f (emitElems (e :: es) ++ (']' :: rest)) = some (e :: es, rest)
  | e, [], f, rest, hwe, _, hf => by
    match f, hf with
    | f + 1, hf =>
      have hfe : (emitVal e).length < f := by
        simp only [emitElems] at hf
        omega
      rw [show emitElems [e] ++ (']' :: rest) = emitVal e ++ (']' :: rest) by
        simp [emitElems]]
      rw [parseElems_step, rt_val e f (']' :: rest) hwe hfe rfl]
      rfl
  | e, x :: xs, f, rest, hwe, hwes, hf => by
    have hx : wfVal x = true ∧ wfElems xs = true := by
      simpa [wfElems, Bool.and_eq_true] using hwes
    match f, hf with
    | f + 1, hf =>
      have hlen : (emitElems (e :: x :: xs)).length
          = (emitVal e).length + 1 + (emitElems (x :: xs)).length := by
        simp [emitElems]
        omega
      have hone : 1 ≤ (emitVal e).length := by
        obtain ⟨c, t, hct, _⟩ := emit_starter e
        simp [hct]
      have hkey := rt_elems x xs f rest hx.1 hx.2 (by omega)
      rw [show emitElems (e :: x :: xs) ++ (']' :: rest)
          = emitVal e ++ (',' :: (emitElems (x :: xs) ++ (']' :: rest))) by
        simp [emitElems]]
      rw [parseElems_step,
        rt_val e f (',' :: (emitElems (x :: xs) ++ (']' :: rest))) hwe (by omega) rfl]
      simp only [skipWs_cons_nws (by decide : jsonWs ',' = false),
        if_pos (rfl : (',' : Char) = ','), hkey]
      simp
termination_by e es _ _ _ _ _ => sizeOf e + sizeOf es
theorem rt_fields : ∀ (k : String) (v : JVal) (fs : List (String × JVal))
    (f : Nat) (rest : List Char),
    safeStr k = true → wfVal v = true → wfFields fs = true →
    (emitFields ((k, v) :: fs)).length + 1 < f →
    parseFields f (emitFields ((k, v) :: fs) ++ (curlyClose :: rest))
      = some ((k, v) :: fs, rest)
  | k, v, [], f, rest, hk, hv, _, hf => by
    match f, hf with
    | f + 1, hf =>
      have hfe : (emitVal v).length < f := by
        simp only [emitFields, emitStr, List.length_append, List.length_cons] at hf
        omega
      have hsafe : ∀ c ∈ k.data, safeChar c = true := by
        simpa [safeStr, List.all_eq_true] using hk
      have hval := rt_val v f (curlyClose :: rest) hv hfe rfl
      rw [show emitFields [(k, v)] ++ (curlyClose :: rest)
          = '"' :: (k.data.flatMap escapeJsonChar
              ++ ('"' :: (':' :: (emitVal v ++ (curlyClose :: rest))))) by
        simp [emitFields, emitStr]]
      rw [parseFields_step, skipWs_cons_nws (by decide : jsonWs '"' = false)]
      simp only [if_pos (rfl : ('"' : Char) = '"'),
        readStrBody_escaped k.data _ hsafe,
        skipWs_cons_nws (by decide : jsonWs ':' = false),
        if_pos (rfl : (':' : Char) = ':'), hval,
        skipWs_cons_nws (by decide : jsonWs curlyClose = false),
        if_neg (by decide : ¬(curlyClose = ',')),
        if_pos (rfl : curlyClose = curlyClose), stringMk_data]
      simp
  | k, v, (k2, v2) :: fs, f, rest, hk, hv, hwfs, hf => by
    have hx : safeStr k2 = true ∧ wfVal v2 = true ∧ wfFields fs = true := by
      simpa [wfFields, Bool.and_eq_true, and_assoc] using hwfs
    match f, hf with
    | f + 1, hf =>
      have hlen : (emitFields ((k, v) :: (k2, v2) :: fs)).length
          = (emitStr k).length + 1 + (emitVal v).length + 1
            + (emitFields ((k2, v2) :: fs)).length := by
        simp [emitFields]
        omega
      have hone : 2 ≤ (emitStr k).length := by
        simp [emitStr]
      have hsafe : ∀ c ∈ k.data, safeChar c = true := by
        simpa [safeStr, List.all_eq_true] using hk
      have hkey := rt_fields k2 v2 fs f rest hx.1 hx.2.1 hx.2.2 (by omega)
      have hval := rt_val v f
        (',' :: (emitFields ((k2, v2) :: fs) ++ (curlyClose :: rest))) hv
        (by omega) rfl
      rw [show emitFields ((k, v) :: (k2, v2) :: fs) ++ (curlyClose :: rest)
          = '"' :: (k.data.flatMap escapeJsonChar
              ++ ('"' :: (':' :: (emitVal v
                  ++ (',' :: (emitFields ((k2, v2) :: fs)
                      ++ (curlyClose :: rest))))))) by
        simp [emitFields, emitStr]]
      rw [parseFields_step, skipWs_cons_nws (by decide : jsonWs '"' = false)]
      simp only [if_pos (rfl : ('"' : Char) = '"'),
        readStrBody_escaped k.data _ hsafe,
        skipWs_cons_nws (by decide : jsonWs ':' = false),
        if_pos (rfl : (':' : Char) = ':'), hval,
        skipWs_cons_nws (by decide : jsonWs ',' = false),
        if_pos (rfl : (',' : Char) = ','), hkey, stringMk_data]
      simp
termination_by k v fs _ _ _ _ _ _ => sizeOf v + sizeOf fs
end

/-! ### Parsing the continued-line array text -/

theorem parseElems_decorated :
    ∀ (vs : List JVal) (v : JVal) (f : Nat), wfVal v = true → wfElems vs = true →
      (emitVal v ++ decoratedTail vs).length + 1 < f →
      parseElems f (emitVal v ++ decoratedTail vs) = some (v :: vs, [])
  | [], v, f, hwv, _, hf => by
    match f, hf with
    | f + 1, hf =>
      have hfe : (emitVal v).length < f := by
        have h3 : (decoratedTail ([] : List JVal)).length = 3 := rfl
        simp only [List.length_append, h3] at hf
        omega
      have hval := rt_val v f [' ', '\n', ']'] hwv hfe rfl
      rw [show decoratedTail ([] : List JVal) = ([' ', '\n', ']'] : List Char) from rfl]
      rw [parseElems_step, hval]
      rfl
  | w :: ws, v, f, hwv, hwvs, hf => by
    have hx : wfVal w = true ∧ wfElems ws = true := by
      simpa [wfElems, Bool.and_eq_true] using hwvs
    match f, hf with
    | f + 1, hf =>
      have hlen : (decoratedTail (w :: ws)).length
          = 3 + (emitVal w ++ decoratedTail ws).length := by
        simp [decoratedTail]
        omega
      have hone : 1 ≤ (emitVal v).length := by
        obtain ⟨c, t, hct, _⟩ := emit_starter v
        simp [hct]
      rw [List.length_append, hlen] at hf
      have hfv : (emitVal v).length < f := by omega
      have hval := rt_val v f (decoratedTail (w :: ws)) hwv hfv rfl
      have hih := parseElems_decorated ws w f hx.1 hx.2 (by omega)
      rw [parseElems_step, hval]
      rw [show decoratedTail (w :: ws)
          = ',' :: ' ' :: '\n' :: (emitVal w ++ decoratedTail ws) from rfl]
      simp only [skipWs_cons_nws (by decide : jsonWs ',' = false),
        if_pos (rfl : (',' : Char) = ',')]
      have hskip : parseElems f (' ' :: '\n' :: (emitVal w ++ decoratedTail ws))
          = parseElems f (emitVal w ++ decoratedTail ws) := by
        calc parseElems f (' ' :: '\n' :: (emitVal w ++ decoratedTail ws))
            = parseElems f (skipWs (' ' :: '\n' :: (emitVal w ++ decoratedTail ws))) :=
              (parseElems_skipWs f _).symm
          _ = parseElems f (skipWs (emitVal w ++ decoratedTail ws)) := by
              rw [show skipWs (' ' :: '\n' :: (emitVal w ++ decoratedTail ws))
                  = skipWs (emitVal w ++ decoratedTail ws) from rfl]
          _ = parseElems f (emitVal w ++ decoratedTail ws) := parseElems_skipWs f _
      rw [hskip, hih]
      simp

/-! ### Stripping the label value down to plain JSON text -/

theorem removeEscapes_rawTail : ∀ vs : List JVal,
    removeEscapes (rawTail vs) = escTail vs
  | [] => by decide
  | w :: ws => by
    rw [show rawTail (w :: ws)
        = ',' :: ' ' :: '\\' :: '\n'
            :: (escapeLabelChars (emitVal w) ++ rawTail ws) from rfl]
    rw [removeEscapes_cons_of_ne ',' _ (by decide),
      removeEscapes_cons_of_ne ' ' _ (by decide), removeEscapes_bsnl]
    rw [removeEscapes_escape_append, removeEscapes_rawTail ws]
    rfl

theorem escTail_head_not_newline (vs : List JVal) :
    ∀ d, (escTail vs).head? = some d → d ≠ '\n' := by
  cases vs with
  | nil => intro d hd; rw [show (escTail []).head? = some ' ' from rfl] at hd
           exact fun he => by rw [he] at hd; exact absurd (Option.some.inj hd) (by decide)
  | cons w ws =>
    intro d hd
    rw [show (escTail (w :: ws)).head? = some ',' from rfl] at hd
    exact fun he => by rw [he] at hd; exact absurd (Option.some.inj hd) (by decide)

theorem removeContinuations_escTail :
    ∀ vs : List JVal, wfElems vs = true →
      removeContinuations (escTail vs) = decoratedTail vs
  | [], _ => by decide
  | w :: ws, h => by
    have hx : wfVal w = true ∧ wfElems ws = true := by
      simpa [wfElems, Bool.and_eq_true] using h
    rw [show escTail (w :: ws)
        = ',' :: ' ' :: '\\' :: '\n' :: (emitVal w ++ escTail ws) from rfl]
    rw [removeContinuations_cons ',' _ (Or.inl (by decide)),
      removeContinuations_cons ' ' _ (Or.inl (by decide)),
      removeContinuations_pair]
    rw [removeContinuations_append (emitVal w) (escTail ws)
      (emitVal_no_newline w hx.1) (escTail_head_not_newline ws)]
    rw [removeContinuations_escTail ws hx.2]
    rfl

theorem joinComma_label_data : ∀ (v : JVal) (vs : List JVal),
    (joinComma ((v :: vs).map (fun feature => " \\\n" ++ toLabelString feature))).data
        ++ [' ', '\\', '\n', ']']
      = ' ' :: '\\' :: '\n' :: (escapeLabelChars (emitVal v) ++ rawTail vs)
  | v, [] => by
    rw [show joinComma ([v].map (fun feature => " \\\n" ++ toLabelString feature))
        = " \\\n" ++ toLabelString v from rfl]
    rw [String.data_append]
    rw [show ((" \\\n" : String)).data = [' ', '\\', '\n'] from rfl]
    rw [show (toLabelString v).data = escapeLabelChars (emitVal v) from rfl]
    rw [show rawTail [] = ([' ', '\\', '\n', ']'] : List Char) from rfl]
    simp
  | v, w :: ws => by
    have ih := joinComma_label_data w ws
    rw [show joinComma (((v :: w :: ws)).map
          (fun feature => " \\\n" ++ toLabelString feature))
        = (" \\\n" ++ toLabelString v) ++ ","
            ++ joinComma ((w :: ws).map
              (fun feature => " \\\n" ++ toLabelString feature)) from rfl]
    rw [String.data_append, String.data_append, String.data_append]
    rw [show ((" \\\n" : String)).data = [' ', '\\', '\n'] from rfl]
    rw [show (("," : String)).data = [','] from rfl]
    rw [show (toLabelString v).data = escapeLabelChars (emitVal v) from rfl]
    rw [show rawTail (w :: ws)
        = ',' :: ' ' :: '\\' :: '\n'
            :: (escapeLabelChars (emitVal w) ++ rawTail ws) from rfl]
    rw [← ih]
    simp

theorem metadataLabelValue_data (x y : JVal) (rest : List JVal) :
    (metadataLabelValue (x :: y :: rest)).data
      = '[' :: ' ' :: '\\' :: '\n'
          :: (escapeLabelChars (emitVal x) ++ rawTail (y :: rest)) := by
  rw [show metadataLabelValue (x :: y :: rest)
      = "[" ++ joinComma ((x :: y :: rest).map
          (fun feature => " \\\n" ++ toLabelString feature)) ++ " \\\n]" from rfl]
  rw [String.data_append, String.data_append]
  rw [show (("[" : String)).data = ['['] from rfl]
  rw [show ((" \\\n]" : String)).data = [' ', '\\', '\n', ']'] from rfl]
  rw [List.append_assoc, joinComma_label_data x (y :: rest)]
  rfl

theorem strip_label_multi (x y : JVal) (rest : List JVal)
    (hwx : wfVal x = true) (hwrest : wfElems (y :: rest) = true) :
    removeContinuations (removeEscapes (metadataLabelValue (x :: y :: rest)).data)
      = '[' :: ' ' :: '\n' :: (emitVal x ++ decoratedTail (y :: rest)) := by
  rw [metadataLabelValue_data]
  rw [removeEscapes_cons_of_ne '[' _ (by decide),
    removeEscapes_cons_of_ne ' ' _ (by decide), removeEscapes_bsnl]
  rw [removeEscapes_escape_append, removeEscapes_rawTail (y :: rest)]
  rw [removeContinuations_cons '[' _ (Or.inl (by decide)),
    removeContinuations_cons ' ' _ (Or.inl (by decide)),
    removeContinuations_pair]
  rw [removeContinuations_append (emitVal x) (escTail (y :: rest))
    (emitVal_no_newline x hwx) (escTail_head_not_newline (y :: rest))]
  rw [removeContinuations_escTail (y :: rest) hwrest]

/-! ### Top-level parse of serialized values -/

theorem jsonParse_emit (v : JVal) (hw : wfVal v = true) :
    jsonParse (String.mk (emitVal v)) = some v := by
  unfold jsonParse
  have h := rt_val v ((emitVal v).length + 1) [] hw (by omega) rfl
  rw [List.append_nil] at h
  rw [show (String.mk (emitVal v)).data = emitVal v from rfl, h]
  rfl

theorem jsonParse_decorated (x : JVal) (vs : List JVal)
    (hwx : wfVal x = true) (hwvs : wfElems vs = true) :
    jsonParse (String.mk ('[' :: ' ' :: '\n' :: (emitVal x ++ decoratedTail vs)))
      = some (.arr (x :: vs)) := by
  unfold jsonParse
  rw [show (String.mk ('[' :: ' ' :: '\n' :: (emitVal x ++ decoratedTail vs))).data
      = '[' :: ' ' :: '\n' :: (emitVal x ++ decoratedTail vs) from rfl]
  rw [show ('[' :: ' ' :: '\n' :: (emitVal x ++ decoratedTail vs)).length + 1
      = (' ' :: '\n' :: (emitVal x ++ decoratedTail vs)).length + 1 + 1 by simp]
  rw [parseVal_lbrack]
  have hskip : skipWs (' ' :: '\n' :: (emitVal x ++ decoratedTail vs))
      = emitVal x ++ decoratedTail vs := by
    rw [show skipWs (' ' :: '\n' :: (emitVal x ++ decoratedTail vs))
        = skipWs (emitVal x ++ decoratedTail vs) from rfl]
    exact skipWs_emit x _
  rw [hskip]
  obtain ⟨c, t, hct, hst⟩ := emit_starter x
  have hdlen : 3 ≤ (decoratedTail vs).length := by
    cases vs with
    | nil => simp [decoratedTail]
    | cons w ws => simp [decoratedTail]
  have hkey := parseElems_decorated vs x
    ((' ' :: '\n' :: (emitVal x ++ decoratedTail vs)).length + 1) hwx hwvs (by
      simp only [List.length_cons, List.length_append]
      omega)
  rw [hct, List.cons_append]
  simp only [if_neg (starter_ne_rbrack c hst)]
  rw [show c :: (t ++ decoratedTail vs) = emitVal x ++ decoratedTail vs by
    rw [hct, List.cons_append]]
  rw [hkey]
  rfl

/-! ### C3 -/

theorem wfEntry_obj (e : JVal) (h : wfEntry e = true) :
    ∃ fs, e = JVal.obj fs ∧ wfFields fs = true := by
  cases e <;> simp [wfEntry] at h ⊢
  exact h

theorem wfEntry_wfVal (e : JVal) (h : wfEntry e = true) : wfVal e = true := by
  cases e <;> simpa [wfEntry, wfVal] using h

theorem wfElems_of_forall :
    ∀ l : List JVal, (∀ e ∈ l, wfVal e = true) → wfElems l = true
  | [], _ => rfl
  | e :: es, h => by
    simp only [wfElems, Bool.and_eq_true]
    exact ⟨h e (by simp), wfElems_of_forall es (fun x hx => h x (by simp [hx]))⟩

theorem mk_ne_empty (c : Char) (t : List Char) : String.mk (c :: t) ≠ "" := by
  intro h
  have hd := congrArg String.data h
  simp at hd

theorem emitVal_ne_nil (v : JVal) : ∃ c t, emitVal v = c :: t := by
  obtain ⟨c, t, hct, _⟩ := emit_starter v
  exact ⟨c, t, hct⟩

theorem decodeLabel_some (text : String) (hne : text ≠ "") :
    decodeLabel text
      = (match jsonParse text with
         | some (.arr es) => (es, [])
         | some (.obj fs) => ([.obj fs], [])
         | some _ => ([], [.diag ("Invalid image metadata: " ++ text)])
         | none => ([], [.diag ("Error parsing image metadata: " ++ text)])) := by
  unfold decodeLabel internalGetImageMetadata
  simp [List.lookup, imageMetadataLabel, hne]

/-- C3 counterexample: for the two well-formed entries `{"a":1}` and
`{"b":2}`, decoding the label value with only the inserted escape
backslashes removed fails (the literal line-continuation backslashes are not
valid JSON), so the decoded sequence is empty rather than the original two
entries. -/
theorem c3_counterexample :
    wfEntry (JVal.obj [("a", JVal.num 1)]) = true
    ∧ wfEntry (JVal.obj [("b", JVal.num 2)]) = true
    ∧ (decodeLabel (stripEscapes (metadataLabelValue
          [JVal.obj [("a", JVal.num 1)], JVal.obj [("b", JVal.num 2)]]))).1
        ≠ [JVal.obj [("a", JVal.num 1)], JVal.obj [("b", JVal.num 2)]] := by
  refine ⟨rfl, rfl, ?_⟩
  intro h
  rw [show (decodeLabel (stripEscapes (metadataLabelValue
      [JVal.obj [("a", JVal.num 1)], JVal.obj [("b", JVal.num 2)]]))).1
      = [] from rfl] at h
  exact List.noConfusion h

/-- C3 (amended): for every non-empty sequence of well-formed metadata
entries, decoding the text obtained from the encoded label value by removing
the inserted escape backslashes *and* the line-continuation backslashes that
precede the inserted newlines yields the original sequence, entry for entry
in order.  (With only the escape backslashes removed the property holds
exactly for single-entry sequences, as the counterexample shows.) -/
theorem c3_roundtrip_stripped (entries : List JVal) (hne : entries ≠ [])
    (hwf : ∀ e ∈ entries, wfEntry e = true) :
    (decodeLabel (stripContinuations (stripEscapes (metadataLabelValue entries)))).1
      = entries := by
  cases entries with
  | nil => exact absurd rfl hne
  | cons x tail =>
    cases tail with
    | nil =>
      obtain ⟨fs, rfl, hfs⟩ := wfEntry_obj x (hwf x (by simp))
      have h1 : stripEscapes (metadataLabelValue [JVal.obj fs])
          = String.mk (emitVal (JVal.obj fs)) := by
        unfold stripEscapes
        rw [show (metadataLabelValue [JVal.obj fs]).data
            = escapeLabelChars (emitVal (JVal.obj fs)) from rfl]
        rw [show removeEscapes (escapeLabelChars (emitVal (JVal.obj fs)))
            = emitVal (JVal.obj fs) by
          simpa [removeEscapes] using
            removeEscapes_escape_append (emitVal (JVal.obj fs)) []]
      have h2 : stripContinuations (String.mk (emitVal (JVal.obj fs)))
          = String.mk (emitVal (JVal.obj fs)) := by
        unfold stripContinuations
        rw [show (String.mk (emitVal (JVal.obj fs))).data
            = emitVal (JVal.obj fs) from rfl]
        rw [show removeContinuations (emitVal (JVal.obj fs))
            = emitVal (JVal.obj fs) by
          simpa [removeContinuations] using
            removeContinuations_append (emitVal (JVal.obj fs)) []
              (emitVal_no_newline _ (by simpa [wfVal] using hfs))
              (fun d hd => by simp at hd)]
      rw [h1, h2]
      obtain ⟨c, t, hct⟩ := emitVal_ne_nil (JVal.obj fs)
      rw [decodeLabel_some _ (by rw [hct]; exact mk_ne_empty c t)]
      rw [jsonParse_emit (JVal.obj fs) (by simpa [wfVal] using hfs)]
    | cons y rest =>
      have hwx : wfVal x = true := wfEntry_wfVal x (hwf x (by simp))
      have hwrest : wfElems (y :: rest) = true :=
        wfElems_of_forall (y :: rest)
          (fun e he => wfEntry_wfVal e (hwf e (by simp [he])))
      have hstrip : stripContinuations (stripEscapes
            (metadataLabelValue (x :: y :: rest)))
          = String.mk ('[' :: ' ' :: '\n' :: (emitVal x ++ decoratedTail (y :: rest))) := by
        unfold stripContinuations stripEscapes
        rw [show (String.mk (removeEscapes (metadataLabelValue (x :: y :: rest)).data)).data
            = removeEscapes (metadataLabelValue (x :: y :: rest)).data from rfl]
        rw [strip_label_multi x y rest hwx hwrest]
      rw [hstrip]
      rw [decodeLabel_some _ (mk_ne_empty _ _)]
      rw [jsonParse_decorated x (y :: rest) hwx hwrest]

/-- C3 witness: the two-entry sequence `{"a":1}`, `{"b":2}` round-trips
through the encoder once both the escape backslashes and the
line-continuation backslashes are removed before decoding. -/
theorem c3_witness :
    (decodeLabel (stripContinuations (stripEscapes (metadataLabelValue
        [JVal.obj [("a", JVal.num 1)], JVal.obj [("b", JVal.num 2)]])))).1
      = [JVal.obj [("a", JVal.num 1)], JVal.obj [("b", JVal.num 2)]] :=
  c3_roundtrip_stripped
    [JVal.obj [("a", JVal.num 1)], JVal.obj [("b", JVal.num 2)]]
    (by simp) (by decide)

end DevContainer
